import Mathlib

/-!
Verification development for the mini-jira task-management board engine.

The definitions below are a shallow embedding of the TypeScript source:
`structures.ts` (trie, LRU cache, priority queue, dependency-cycle check,
cursor-window arithmetic) and the board reducer module (toasts, move
records, status maps, undo/redo history, the reducer itself) plus the
seed-store generator.

Modelling conventions:
- JS objects / `Map`s keyed by strings are modelled as insertion-ordered
  association lists (`List (κ × α)`), with `jsGet` / `jsSet` mirroring
  property lookup and `obj[k] = v` / `Map.set` (update in place when the
  key is present, append otherwise).
- JS `Set`s are insertion-ordered duplicate-free lists (`jsSetAdd`,
  `jsSetDelete`, `jsSetOfList`).
- Machine numbers are `Nat` / `Int` (all arithmetic in the source stays
  in the exact-integer range).
- `Date.now()` and the module-global toast counter are threaded
  explicitly: every state transition takes the current counter and time
  as extra arguments and returns the updated counter.
-/

set_option maxHeartbeats 4000000

namespace TaskBoard

/-- JS object / Map lookup `m[k]` (first matching key). -/
def jsGet {κ α : Type} [DecidableEq κ] (m : List (κ × α)) (k : κ) : Option α :=
  (m.find? (fun e => e.1 = k)).map (fun e => e.2)

/-- JS object / Map write `m[k] = v`: updates in place when the key is
present, appends otherwise (preserving JS key-insertion order). -/
def jsSet {κ α : Type} [DecidableEq κ] (m : List (κ × α)) (k : κ) (v : α) : List (κ × α) :=
  if m.any (fun e => e.1 = k) then m.map (fun e => if e.1 = k then (k, v) else e)
  else m ++ [(k, v)]

/-- JS `Map.delete k`. -/
def jsDelete {κ α : Type} [DecidableEq κ] (m : List (κ × α)) (k : κ) : List (κ × α) :=
  m.filter (fun e => ¬ e.1 = k)

/-- The keys of a JS object / Map, in insertion order. -/
def keysOf {κ α : Type} (m : List (κ × α)) : List κ :=
  m.map (fun e => e.1)

/-- JS `Set.add`: append if not already a member. -/
def jsSetAdd {κ : Type} [DecidableEq κ] (s : List κ) (x : κ) : List κ :=
  if x ∈ s then s else s ++ [x]

/-- JS `Set.delete`: remove the element, keeping order. -/
def jsSetDelete {κ : Type} [DecidableEq κ] (s : List κ) (x : κ) : List κ :=
  s.filter (fun y => ¬ y = x)

/-- JS `new Set(list)`: first-occurrence deduplication, insertion order. -/
def jsSetOfList {κ : Type} [DecidableEq κ] (l : List κ) : List κ :=
  l.foldl jsSetAdd []

/-! ## Core data model (`types.ts`) -/

inductive TaskStatus
  | backlog
  | todo
  | in_progress
  | done
deriving DecidableEq, Repr, Inhabited, Fintype

inductive TaskPriorityLevel
  | low
  | medium
  | high
deriving DecidableEq, Repr, Inhabited

structure Task where
  id : String
  title : String
  description : String
  status : TaskStatus
  priorityLevel : TaskPriorityLevel
  dependencyIds : List String
  subtaskIds : List String
  parentId : Option String
  createdAt : Int
  updatedAt : Int
deriving DecidableEq, Repr, Inhabited

/-- `Record<TaskStatus, TaskId[]>`, as produced by `emptyStatusMap`. -/
structure StatusMap where
  backlog : List String
  todo : List String
  in_progress : List String
  done : List String
deriving DecidableEq, Repr, Inhabited

def emptyStatusMap : StatusMap := ⟨[], [], [], []⟩

def StatusMap.get (m : StatusMap) : TaskStatus → List String
  | .backlog => m.backlog
  | .todo => m.todo
  | .in_progress => m.in_progress
  | .done => m.done

/-- `buckets[status].push(id)`. -/
def StatusMap.push (m : StatusMap) (status : TaskStatus) (id : String) : StatusMap :=
  match status with
  | .backlog => { m with backlog := m.backlog ++ [id] }
  | .todo => { m with todo := m.todo ++ [id] }
  | .in_progress => { m with in_progress := m.in_progress ++ [id] }
  | .done => { m with done := m.done ++ [id] }

structure NormalizedTaskStore where
  byId : List (String × Task)
  rootTaskIds : List String
  idsByStatus : StatusMap
deriving DecidableEq, Repr, Inhabited

structure MoveRecord where
  fromStatusById : List (String × TaskStatus)
  toStatusById : List (String × TaskStatus)
  changedAt : Int
deriving DecidableEq, Repr, Inhabited

inductive ToastTone
  | info
  | success
  | warning
  | error
deriving DecidableEq, Repr, Inhabited

structure ToastMessage where
  id : String
  message : String
  priority : Int
  tone : ToastTone
  createdAt : Int
deriving DecidableEq, Repr, Inhabited

structure BoardState where
  tasks : NormalizedTaskStore
  selectedTaskIds : List String
  undoStack : List MoveRecord
  redoStack : List MoveRecord
  toastHeap : List ToastMessage
  activeToasts : List ToastMessage
  revision : Nat
deriving DecidableEq, Repr, Inhabited

inductive BoardAction
  | toggle_task_selection (taskId : String)
  | clear_selection
  | select_many (taskIds : List String)
  | deselect_many (taskIds : List String)
  | move_tasks (taskIds : List String) (nextStatus : TaskStatus)
  | bulk_move_selected (nextStatus : TaskStatus)
  | undo_move
  | redo_move
  | add_dependency (taskId : String) (dependsOnTaskId : String)
  | dismiss_toast (toastId : String)
  | enqueue_toast (message : String) (priority : Int) (tone : ToastTone)
deriving DecidableEq, Repr

/-! ## `structures.ts`: search-term normalization and trie -/

/-- ASCII whitespace recognised by the `\s` class used in
`normalizeSearchTerm` (the source data only ever contains these). -/
def jsIsSpace (c : Char) : Bool :=
  c = ' ' ∨ c = '\t' ∨ c = '\n' ∨ c = '\r'

/-- `replace(/\s+/g, " ")`: collapse every maximal whitespace run into a
single space. The boolean records whether the previous character was part
of a whitespace run. -/
def collapseSpacesAux : Bool → List Char → List Char
  | _, [] => []
  | prevSpace, c :: rest =>
    if jsIsSpace c then
      if prevSpace then collapseSpacesAux true rest
      else ' ' :: collapseSpacesAux true rest
    else c :: collapseSpacesAux false rest

/-- JS `String.trim`. -/
def jsTrim (l : List Char) : List Char :=
  ((l.dropWhile jsIsSpace).reverse.dropWhile jsIsSpace).reverse

/-- `normalizeSearchTerm`: trim, lowercase, collapse internal whitespace. -/
def normalizeSearchTerm (s : String) : List Char :=
  collapseSpacesAux false ((jsTrim s.data).map Char.toLower)

/-- JS `split(" ")` on a character list. -/
def splitSpaceAux (cur : List Char) : List Char → List (List Char)
  | [] => [cur.reverse]
  | c :: rest =>
    if c = ' ' then cur.reverse :: splitSpaceAux [] rest
    else splitSpaceAux (c :: cur) rest

inductive TrieNode
  | mk (children : List (Char × TrieNode)) (taskIds : List String)

def TrieNode.children : TrieNode → List (Char × TrieNode)
  | .mk c _ => c

def TrieNode.taskIds : TrieNode → List String
  | .mk _ t => t

def createTrieNode : TrieNode := .mk [] []

mutual

def TrieNode.size : TrieNode → Nat
  | .mk children _ => 1 + childrenSize children

def childrenSize : List (Char × TrieNode) → Nat
  | [] => 0
  | e :: rest => TrieNode.size e.2 + childrenSize rest

end

/-- `TaskTrie.insertSegment`: walk/create the character path, adding the
id to every node along it (each node is stamped after stepping into it). -/
def insertSegment (node : TrieNode) (seg : List Char) (taskId : String) : TrieNode :=
  match seg with
  | [] => node
  | c :: rest =>
    let child := match jsGet node.children c with
      | some existing => existing
      | none => createTrieNode
    let stamped := TrieNode.mk child.children (jsSetAdd child.taskIds taskId)
    TrieNode.mk (jsSet node.children c (insertSegment stamped rest taskId)) node.taskIds

/-- `TaskTrie.insert`: index the whole normalized string and each
whitespace-separated word as independent segments. -/
def trieInsert (root : TrieNode) (rawText : String) (taskId : String) : TrieNode :=
  let normalized := normalizeSearchTerm rawText
  if normalized = [] then root
  else
    let segments :=
      jsSetOfList (normalized :: (splitSpaceAux [] normalized).filter (fun w => w ≠ []))
    segments.foldl (fun node seg => insertSegment node seg taskId) root

/-- Total size of the nodes in a BFS queue (termination measure). -/
def queueSize : List TrieNode → Nat
  | [] => 0
  | n :: rest => TrieNode.size n + queueSize rest

/-- One node's `for (const taskId of current.taskIds)` loop of
`TaskTrie.collect`: dedupe ids into the output, stopping (flag `true`)
as soon as the output reaches `limit`. -/
def collectScan (limit : Nat) : List String → List String → List String →
    List String × List String × Bool
  | [], seen, output => (seen, output, false)
  | id :: rest, seen, output =>
    if id ∈ seen then collectScan limit rest seen output
    else
      let seen' := seen ++ [id]
      let output' := output ++ [id]
      if limit ≤ output'.length then (seen', output', true)
      else collectScan limit rest seen' output'

/-- `TaskTrie.collect`: breadth-first id collection from a node. -/
def trieCollect (limit : Nat) (queue : List TrieNode) (seen output : List String) :
    List String :=
  match queue with
  | [] => output
  | current :: rest =>
    if output.length < limit then
      match collectScan limit current.taskIds seen output with
      | (_, output', true) => output'
      | (seen', output', false) =>
        trieCollect limit (rest ++ current.children.map (fun e => e.2)) seen' output'
    else output
termination_by queueSize queue
decreasing_by
  have hq : ∀ (a b : List TrieNode), queueSize (a ++ b) = queueSize a + queueSize b := by
    intro a b
    induction a with
    | nil => simp [queueSize]
    | cons x xs ih => simp [queueSize, ih]; omega
  have hc : ∀ (cs : List (Char × TrieNode)),
      queueSize (cs.map (fun e => e.2)) = childrenSize cs := by
    intro cs
    induction cs with
    | nil => simp [queueSize, childrenSize]
    | cons x xs ih => simp [queueSize, childrenSize, ih]
  have hsize : ∀ (nd : TrieNode), TrieNode.size nd = 1 + childrenSize nd.children := by
    intro nd
    cases nd with
    | mk c t => rfl
  simp [queueSize, hq, hc, hsize]
  omega

/-- `TaskTrie.suggest` path walk. -/
def trieWalk (node : TrieNode) : List Char → Option TrieNode
  | [] => some node
  | c :: rest =>
    match jsGet node.children c with
    | none => none
    | some next => trieWalk next rest

/-- `TaskTrie.suggest`. -/
def trieSuggest (root : TrieNode) (p : String) (limit : Nat) : List String :=
  let normalized := normalizeSearchTerm p
  if normalized = [] then []
  else
    match trieWalk root normalized with
    | none => []
    | some node => trieCollect limit [node] [] []

/-! ## `structures.ts`: LRU cache -/

structure LRUCache (κ ν : Type) where
  maxEntries : Nat
  map : List (κ × ν)
deriving Repr

/-- `LRUCache.get`: on a hit, delete and re-append the entry (promote to
most-recently-used). -/
def LRUCache.get {κ ν : Type} [DecidableEq κ] (c : LRUCache κ ν) (k : κ) :
    Option ν × LRUCache κ ν :=
  match jsGet c.map k with
  | none => (none, c)
  | some v => (some v, ⟨c.maxEntries, jsDelete c.map k ++ [(k, v)]⟩)

/-- `LRUCache.set`: delete a present key, append the new entry, and evict
the oldest (first) key if the capacity is now exceeded. -/
def LRUCache.set {κ ν : Type} [DecidableEq κ] (c : LRUCache κ ν) (k : κ) (v : ν) :
    LRUCache κ ν :=
  let afterDelete := if (jsGet c.map k).isSome then jsDelete c.map k else c.map
  let afterInsert := afterDelete ++ [(k, v)]
  if afterInsert.length ≤ c.maxEntries then ⟨c.maxEntries, afterInsert⟩
  else
    match afterInsert with
    | [] => ⟨c.maxEntries, []⟩
    | oldest :: _ => ⟨c.maxEntries, jsDelete afterInsert oldest.1⟩

/-! ## `structures.ts`: binary max-heap priority queue

The `PriorityQueue` class is represented by its backing array (a list)
together with its comparator, passed explicitly to each operation. -/

/-- JS array destructuring swap of two positions. -/
def listSwap {α : Type} [Inhabited α] (h : List α) (i j : Nat) : List α :=
  let vi := h.getD i default
  let vj := h.getD j default
  (h.set i vj).set j vi

/-- `PriorityQueue.siftUp`. -/
def siftUp {α : Type} [Inhabited α] (cmp : α → α → Int) (h : List α) (i : Nat) : List α :=
  if i = 0 then h
  else
    let parent := (i - 1) / 2
    if cmp (h.getD i default) (h.getD parent default) ≤ 0 then h
    else siftUp cmp (listSwap h i parent) parent
termination_by i
decreasing_by omega

/-- The body of one `PriorityQueue.siftDown` iteration: the index of the
largest of `current` and its in-bounds children (checked left, then
right, against the running largest). -/
def siftDownLargest {α : Type} [Inhabited α] (cmp : α → α → Int) (h : List α) (i : Nat) :
    Nat :=
  let left := 2 * i + 1
  let rightIdx := left + 1
  let largest1 :=
    if left < h.length ∧ 0 < cmp (h.getD left default) (h.getD i default) then left else i
  if rightIdx < h.length ∧ 0 < cmp (h.getD rightIdx default) (h.getD largest1 default)
  then rightIdx else largest1

/-- `PriorityQueue.siftDown`. -/
def siftDown {α : Type} [Inhabited α] (cmp : α → α → Int) (h : List α) (i : Nat) : List α :=
  if i < h.length then
    let largest := siftDownLargest cmp h i
    if largest = i then h
    else siftDown cmp (listSwap h i largest) largest
  else h
termination_by h.length - i
decreasing_by
  have hle : i ≤ siftDownLargest cmp h i := by
    simp only [siftDownLargest]
    split_ifs <;> omega
  simp only [listSwap, List.length_set]
  omega

/-- `PriorityQueue.push`. -/
def pqPush {α : Type} [Inhabited α] (cmp : α → α → Int) (h : List α) (v : α) : List α :=
  siftUp cmp (h ++ [v]) h.length

/-- `PriorityQueue.pop`: returns the popped maximum (if any) and the
remaining heap. -/
def pqPop {α : Type} [Inhabited α] (cmp : α → α → Int) (h : List α) : Option α × List α :=
  match h with
  | [] => (none, [])
  | [x] => (some x, [])
  | x :: _ :: _ =>
    let tail := h.getD (h.length - 1) default
    (some x, siftDown cmp (h.dropLast.set 0 tail) 0)

/-- `PriorityQueue.heapify` inner loop: sift down at indices
`n-1, n-2, ..., 0`. -/
def heapifyAux {α : Type} [Inhabited α] (cmp : α → α → Int) : List α → Nat → List α
  | h, 0 => h
  | h, n + 1 => heapifyAux cmp (siftDown cmp h n) n

/-- The `PriorityQueue` constructor seeded from an existing array:
heapify in place when the seed has more than one element. -/
def heapify {α : Type} [Inhabited α] (cmp : α → α → Int) (h : List α) : List α :=
  if 1 < h.length then heapifyAux cmp h (h.length / 2) else h

/-! ## `structures.ts`: dependency graph and cycle detection -/

/-- `buildDependencyGraph`: a Map from task id to a copy of its
dependency list, built over `Object.values(tasksById)`. -/
def buildDependencyGraph (tasksById : List (String × Task)) : List (String × List String) :=
  tasksById.foldl (fun graph e => jsSet graph e.2.id e.2.dependencyIds) []

/-- `graph.get(current) ?? []`. -/
def neighborsOf (graph : List (String × List String)) (k : String) : List String :=
  (jsGet graph k).getD []

/-- Every id mentioned by the graph (keys and neighbors); only used as a
termination measure for the DFS. -/
def allNodes : List (String × List String) → List String
  | [] => []
  | e :: g => e.1 :: (e.2 ++ allNodes g)

/-- The `while (stack.length > 0)` loop of `hasPath`: depth-first search
with an explicit stack (modelled top-at-head; JS pushes/pops at the array
end) and a visited set. A popped falsy (empty-string) or already-visited
id is skipped; otherwise it is marked visited and each neighbor is
compared against the target before the unvisited ones are pushed. -/
def dfsLoop (graph : List (String × List String)) (target : String)
    (visited stack : List String) : Bool :=
  match stack with
  | [] => false
  | current :: rest =>
    if current = "" ∨ current ∈ visited then dfsLoop graph target visited rest
    else
      let visited' := visited ++ [current]
      let neighbors := neighborsOf graph current
      if target ∈ neighbors then true
      else dfsLoop graph target visited'
        ((neighbors.filter (fun n => ¬ n ∈ visited')).reverse ++ rest)
termination_by (((allNodes graph).filter (fun n => ¬ n ∈ visited)).length, stack.length)
decreasing_by
  · apply Prod.Lex.right
    simp
  · have mono : ∀ (l : List String) (p q : String → Bool),
        (∀ x, q x = true → p x = true) →
        (l.filter q).length ≤ (l.filter p).length := by
      intro l p q hpq
      induction l with
      | nil => simp
      | cons b bs ih =>
        by_cases hqb : q b = true
        · rw [List.filter_cons_of_pos hqb, List.filter_cons_of_pos (hpq b hqb)]
          exact Nat.succ_le_succ ih
        · rw [List.filter_cons_of_neg (by simpa using hqb)]
          by_cases hpb : p b = true
          · rw [List.filter_cons_of_pos hpb]
            exact Nat.le_succ_of_le ih
          · rw [List.filter_cons_of_neg (by simpa using hpb)]
            exact ih
    have key : ∀ (l : List String) (p q : String → Bool) (a : String),
        (∀ x, q x = true → p x = true) → a ∈ l → p a = true → q a = false →
        (l.filter q).length < (l.filter p).length := by
      intro l p q a hpq ha hpa hqa
      induction l with
      | nil => cases ha
      | cons b bs ih =>
        by_cases hba : b = a
        · subst hba
          rw [List.filter_cons_of_pos hpa, List.filter_cons_of_neg (by simp [hqa])]
          exact Nat.lt_succ_of_le (mono bs p q hpq)
        · have ha' : a ∈ bs := by
            cases ha with
            | head => exact absurd rfl hba
            | tail _ htl => exact htl
          by_cases hqb : q b = true
          · rw [List.filter_cons_of_pos hqb, List.filter_cons_of_pos (hpq b hqb)]
            exact Nat.succ_lt_succ (ih ha')
          · rw [List.filter_cons_of_neg (by simpa using hqb)]
            by_cases hpb : p b = true
            · rw [List.filter_cons_of_pos hpb]
              exact Nat.lt_succ_of_lt (ih ha')
            · rw [List.filter_cons_of_neg (by simpa using hpb)]
              exact ih ha'
    have hkeys : ∀ (g : List (String × List String)) (k : String),
        ¬ k ∈ allNodes g → jsGet g k = none := by
      intro g k
      induction g with
      | nil => intro _; rfl
      | cons e g ih =>
        intro hk
        have h1 : ¬ e.1 = k := by
          intro he
          exact hk (by simp [allNodes, he])
        have h2 : ¬ k ∈ allNodes g := by
          intro hm
          exact hk (by simp [allNodes, hm])
        have hfind : (e :: g).find? (fun x => x.1 = k) = g.find? (fun x => x.1 = k) := by
          rw [List.find?_cons_of_neg _ (by simpa using h1)]
        simpa [jsGet, hfind] using ih h2
    rename_i hcond _
    by_cases hmem : current ∈ allNodes graph
    · apply Prod.Lex.left
      refine key _ _ _ current ?_ hmem ?_ ?_
      · intro x hx
        simp at hx ⊢
        exact hx.1
      · simp
        intro hv
        exact hcond (Or.inr hv)
      · simp
    · have hnone : jsGet graph current = none := hkeys graph current hmem
      have hnb : neighborsOf graph current = [] := by
        simp [neighborsOf, hnone]
      have hfilter : ∀ l : List String, ¬ current ∈ l →
          (l.filter (fun n => ¬ n ∈ visited ++ [current])) =
            (l.filter (fun n => ¬ n ∈ visited)) := by
        intro l hcl
        induction l with
        | nil => rfl
        | cons b bs ih =>
          simp at hcl
          push_neg at hcl
          have hmemiff : (b ∈ visited ++ [current]) = (b ∈ visited) := by
            simp [hcl.1.symm]
          by_cases hb : b ∈ visited
          · rw [List.filter_cons_of_neg (by simp [hmemiff, hb]),
              List.filter_cons_of_neg (by simp [hb])]
            exact ih hcl.2
          · rw [List.filter_cons_of_pos (by simp [hmemiff, hb]),
              List.filter_cons_of_pos (by simp [hb])]
            rw [ih hcl.2]
      rw [hnb]
      simp only [List.filter_nil, List.reverse_nil, List.nil_append]
      rw [hfilter _ hmem]
      apply Prod.Lex.right
      simp

/-- `hasPath`: trivial self-reachability, else DFS from `start`. -/
def hasPath (graph : List (String × List String)) (start target : String) : Bool :=
  if start = target then true
  else dfsLoop graph target [] [start]

/-- `createsDependencyCycle`: add the candidate edge to a scratch graph
and test whether `taskId` is reachable from `dependsOnTaskId`. -/
def createsDependencyCycle (tasksById : List (String × Task))
    (taskId dependsOnTaskId : String) : Bool :=
  let graph := buildDependencyGraph tasksById
  let current := (jsGet graph taskId).getD []
  let graph2 := jsSet graph taskId (current ++ [dependsOnTaskId])
  hasPath graph2 dependsOnTaskId taskId

/-! ## `structures.ts`: cursor pagination window -/

structure CursorWindow where
  totalPages : Nat
  currentPage : Nat
  cursor : Nat
  pageWindow : List Nat
  nextCursor : Option Nat
  prevCursor : Option Nat
deriving DecidableEq, Repr

/-- `getCursorWindow`. `Math.ceil(totalItems / p)` on non-negative
integers is `(totalItems + p - 1) / p`; the `Math.max(1, ...)` clamps
make the truncated `Nat` subtractions agree with the JS signed ones. -/
def getCursorWindow (totalItems requestedCursor pageSize windowSize : Nat) : CursorWindow :=
  let safePageSize := max pageSize 1
  let totalPages := max 1 ((totalItems + safePageSize - 1) / safePageSize)
  let maxCursor := (totalPages - 1) * safePageSize
  let cursor := min requestedCursor maxCursor
  let currentPage := cursor / safePageSize + 1
  let halfWindow := windowSize / 2
  let startPage0 := max 1 (currentPage - halfWindow)
  let endPage := min totalPages (startPage0 + windowSize - 1)
  let startPage := max 1 (endPage - windowSize + 1)
  let pageWindow := (List.range (endPage + 1 - startPage)).map (fun i => startPage + i)
  let prevCursor := if 1 < currentPage then some (cursor - safePageSize) else none
  let nextCursor := if currentPage < totalPages then some (cursor + safePageSize) else none
  ⟨totalPages, currentPage, cursor, pageWindow, nextCursor, prevCursor⟩

/-! ## Board module: toasts -/

def MAX_HISTORY : Nat := 60

def MAX_ACTIVE_TOASTS : Nat := 3

def toastComparator (l r : ToastMessage) : Int :=
  if l.priority ≠ r.priority then l.priority - r.priority
  else r.createdAt - l.createdAt

/-- `createToast`: bumps the module-global counter (threaded explicitly)
and stamps `Date.now()` (passed as `now`). -/
def createToast (counter : Nat) (now : Int) (message : String) (priority : Int)
    (tone : ToastTone) : Nat × ToastMessage :=
  let c := counter + 1
  (c, ⟨"toast-" ++ toString c, message, priority, tone, now⟩)

/-- The `while` loop of `flushVisibleToasts`: promote popped toasts into
the active list while it has fewer than `MAX_ACTIVE_TOASTS` entries. -/
def flushLoop (activeToasts heap : List ToastMessage) : List ToastMessage × List ToastMessage :=
  if activeToasts.length < MAX_ACTIVE_TOASTS ∧ 0 < heap.length then
    match pqPop toastComparator heap with
    | (some nextToast, heap') => flushLoop (activeToasts ++ [nextToast]) heap'
    | (none, heap') => (activeToasts, heap')
  else (activeToasts, heap)
termination_by MAX_ACTIVE_TOASTS - activeToasts.length
decreasing_by
  simp only [MAX_ACTIVE_TOASTS, List.length_append, List.length_cons, List.length_nil] at *
  omega

/-- `flushVisibleToasts`: rebuild the queue from the stored heap array
(the constructor heapifies a seeded queue), promote, and store back. -/
def flushVisibleToasts (state : BoardState) : BoardState :=
  let queue := heapify toastComparator state.toastHeap
  let flushed := flushLoop state.activeToasts queue
  { state with toastHeap := flushed.2, activeToasts := flushed.1 }

/-- `enqueueSystemToast`: seed a queue from the stored heap, push a fresh
toast, then flush. -/
def enqueueSystemToast (counter : Nat) (now : Int) (state : BoardState) (message : String)
    (priority : Int) (tone : ToastTone) : Nat × BoardState :=
  let queue := heapify toastComparator state.toastHeap
  let created := createToast counter now message priority tone
  let pushed := pqPush toastComparator queue created.2
  (created.1, flushVisibleToasts { state with toastHeap := pushed })

/-! ## Board module: status buckets, history, move records -/

def buildStatusBuckets (byId : List (String × Task)) (rootTaskIds : List String) : StatusMap :=
  rootTaskIds.foldl
    (fun buckets taskId =>
      match jsGet byId taskId with
      | none => buckets
      | some task => buckets.push task.status task.id)
    emptyStatusMap

def appendHistory (stack : List MoveRecord) (record : MoveRecord) : List MoveRecord :=
  if stack.length + 1 ≤ MAX_HISTORY then stack ++ [record]
  else stack.drop 1 ++ [record]

/-- `createMoveRecord`: over the deduplicated requested ids, restrict to
present root tasks whose status differs from the target; `null` when
nothing would change. -/
def createMoveRecord (taskIds : List String) (nextStatus : TaskStatus)
    (byId : List (String × Task)) (now : Int) : Option MoveRecord :=
  let step := fun (acc : List (String × TaskStatus) × List (String × TaskStatus))
      (taskId : String) =>
    match jsGet byId taskId with
    | none => acc
    | some task =>
      if task.parentId ≠ none then acc
      else if task.status = nextStatus then acc
      else (jsSet acc.1 taskId task.status, jsSet acc.2 taskId nextStatus)
  let maps := (jsSetOfList taskIds).foldl step ([], [])
  if maps.1.length = 0 then none
  else some ⟨maps.1, maps.2, now⟩

/-- `applyStatusMap`: fold the requested `(taskId, status)` entries over a
copy of `byId`, skipping absent ids, subtasks, and unchanged statuses;
referentially unchanged when nothing changed, otherwise rebuild the
status buckets from `rootTaskIds`. -/
def applyStatusMap (tasks : NormalizedTaskStore)
    (statusByTaskId : List (String × TaskStatus)) (now : Int) : NormalizedTaskStore :=
  let step := fun (acc : List (String × Task) × Bool) (entry : String × TaskStatus) =>
    match jsGet acc.1 entry.1 with
    | none => acc
    | some task =>
      if task.parentId ≠ none then acc
      else if task.status = entry.2 then acc
      else (jsSet acc.1 entry.1 { task with status := entry.2, updatedAt := now }, true)
  let folded := statusByTaskId.foldl step (tasks.byId, false)
  if folded.2 = false then tasks
  else { tasks with
    byId := folded.1
    idsByStatus := buildStatusBuckets folded.1 tasks.rootTaskIds }

/-- `moveTasks`. -/
def moveTasks (counter : Nat) (now : Int) (state : BoardState) (taskIds : List String)
    (nextStatus : TaskStatus) : Nat × BoardState :=
  match createMoveRecord taskIds nextStatus state.tasks.byId now with
  | none => enqueueSystemToast counter now state "No eligible tasks were moved." 1 .info
  | some record =>
    let tasks := applyStatusMap state.tasks record.toStatusById now
    let movedCount := record.toStatusById.length
    let nextState : BoardState :=
      { state with
        tasks := tasks
        selectedTaskIds := []
        undoStack := appendHistory state.undoStack record
        redoStack := []
        revision := state.revision + 1 }
    enqueueSystemToast counter now nextState
      ("Moved " ++ toString movedCount ++ " task" ++ (if 1 < movedCount then "s" else "") ++ ".")
      2 .success

/-! ## Board module: the reducer -/

def boardReducer (counter : Nat) (now : Int) (state : BoardState) (action : BoardAction) :
    Nat × BoardState :=
  match action with
  | .toggle_task_selection taskId =>
    match jsGet state.tasks.byId taskId with
    | none => (counter, state)
    | some task =>
      if task.parentId ≠ none then (counter, state)
      else
        let selectedTaskIds :=
          if taskId ∈ state.selectedTaskIds then jsSetDelete state.selectedTaskIds taskId
          else jsSetAdd state.selectedTaskIds taskId
        (counter, { state with selectedTaskIds := selectedTaskIds })
  | .clear_selection =>
    if state.selectedTaskIds.length = 0 then (counter, state)
    else (counter, { state with selectedTaskIds := [] })
  | .select_many taskIds =>
    let selectedTaskIds := taskIds.foldl
      (fun sel taskId =>
        match jsGet state.tasks.byId taskId with
        | none => sel
        | some task => if task.parentId ≠ none then sel else jsSetAdd sel taskId)
      state.selectedTaskIds
    (counter, { state with selectedTaskIds := selectedTaskIds })
  | .deselect_many taskIds =>
    if state.selectedTaskIds.length = 0 ∨ taskIds.length = 0 then (counter, state)
    else
      let folded := taskIds.foldl
        (fun (acc : List String × Bool) taskId =>
          if taskId ∈ acc.1 then (jsSetDelete acc.1 taskId, true) else acc)
        (state.selectedTaskIds, false)
      if folded.2 = false then (counter, state)
      else (counter, { state with selectedTaskIds := folded.1 })
  | .move_tasks taskIds nextStatus => moveTasks counter now state taskIds nextStatus
  | .bulk_move_selected nextStatus =>
    if state.selectedTaskIds.length = 0 then
      enqueueSystemToast counter now state "Select tasks before bulk move." 1 .warning
    else moveTasks counter now state state.selectedTaskIds nextStatus
  | .undo_move =>
    if state.undoStack.length = 0 then
      enqueueSystemToast counter now state "Undo stack is empty." 1 .info
    else
      let record := state.undoStack.getD (state.undoStack.length - 1) default
      let tasks := applyStatusMap state.tasks record.fromStatusById now
      let nextState : BoardState :=
        { state with
          tasks := tasks
          undoStack := state.undoStack.dropLast
          redoStack := appendHistory state.redoStack record
          revision := state.revision + 1 }
      enqueueSystemToast counter now nextState "Undid last move." 2 .success
  | .redo_move =>
    if state.redoStack.length = 0 then
      enqueueSystemToast counter now state "Redo stack is empty." 1 .info
    else
      let record := state.redoStack.getD (state.redoStack.length - 1) default
      let tasks := applyStatusMap state.tasks record.toStatusById now
      let nextState : BoardState :=
        { state with
          tasks := tasks
          redoStack := state.redoStack.dropLast
          undoStack := appendHistory state.undoStack record
          revision := state.revision + 1 }
      enqueueSystemToast counter now nextState "Redid last move." 2 .success
  | .add_dependency taskId dependsOnTaskId =>
    match jsGet state.tasks.byId taskId, jsGet state.tasks.byId dependsOnTaskId with
    | none, _ => enqueueSystemToast counter now state "Invalid dependency target." 1 .error
    | some _, none => enqueueSystemToast counter now state "Invalid dependency target." 1 .error
    | some task, some dependencyTask =>
      if task.id = dependencyTask.id then
        enqueueSystemToast counter now state "A task cannot depend on itself." 1 .error
      else if dependencyTask.id ∈ task.dependencyIds then
        enqueueSystemToast counter now state "Dependency already exists." 1 .info
      else if createsDependencyCycle state.tasks.byId task.id dependencyTask.id then
        enqueueSystemToast counter now state "Dependency rejected: cycle detected." 3 .error
      else
        let updatedTask : Task :=
          { task with
            dependencyIds := task.dependencyIds ++ [dependencyTask.id]
            updatedAt := now }
        enqueueSystemToast counter now
          { state with
            tasks := { state.tasks with byId := jsSet state.tasks.byId task.id updatedTask }
            revision := state.revision + 1 }
          ("Dependency added: " ++ task.id ++ " -> " ++ dependencyTask.id) 2 .success
  | .dismiss_toast toastId =>
    let activeToasts := state.activeToasts.filter (fun toast => toast.id ≠ toastId)
    if activeToasts.length = state.activeToasts.length then (counter, state)
    else (counter, flushVisibleToasts { state with activeToasts := activeToasts })
  | .enqueue_toast message priority tone =>
    enqueueSystemToast counter now state message priority tone

/-- Run a sequence of `(counter, now, action)`-stamped intents. Each step
supplies its own `Date.now()` value; the toast counter is threaded. -/
def runBoard (counter : Nat) (state : BoardState) : List (Int × BoardAction) → Nat × BoardState
  | [] => (counter, state)
  | (now, action) :: rest =>
    let step := boardReducer counter now state action
    runBoard step.1 step.2 rest

/-! ## Spec-level predicates used by the claims -/

/-- The status of the task stored under `taskId` (spec: "the task's
current status"). -/
def statusOf (state : BoardState) (taskId : String) : Option TaskStatus :=
  (jsGet state.tasks.byId taskId).map (fun t => t.status)

/-- One `dependencyIds` edge of the store: `b` is a direct dependency of
the task stored under `a`. -/
def depEdge (byId : List (String × Task)) (a b : String) : Prop :=
  b ∈ (Option.map (fun t => t.dependencyIds) (jsGet byId a)).getD []

/-- "No task is reachable from itself by following dependencyIds edges". -/
def AcyclicStore (byId : List (String × Task)) : Prop :=
  ∀ x, ¬ Relation.TransGen (depEdge byId) x x

/-- Store well-formedness: no duplicate keys, each task is stored under
its own id, and no id is the empty string. -/
def StoreWF (byId : List (String × Task)) : Prop :=
  (keysOf byId).Nodup ∧ ∀ e ∈ byId, e.2.id = e.1 ∧ e.1 ≠ ""

/-- Each task is stored under its own id (true of the seeded store and
preserved by every mutation). -/
def idKeyed (byId : List (String × Task)) : Prop :=
  ∀ e ∈ byId, e.2.id = e.1

/-- The store's dependency edges together with the one candidate edge
`u -> v` that an `add_dependency u v` intent would insert. -/
def depEdgeWith (byId : List (String × Task)) (u v : String) (a b : String) : Prop :=
  depEdge byId a b ∨ (a = u ∧ b = v)

/-- A nonempty neighbor-walk through a dependency graph from `s` to some
node whose neighbor list contains `target`, every hop a nonempty string —
exactly the situations in which the DFS of `hasPath` can detect `target`
(it scans the neighbor lists of the non-falsy nodes it processes). -/
inductive PathTo (graph : List (String × List String)) (target : String) : String → Prop
  | direct (s : String) : target ∈ neighborsOf graph s → PathTo graph target s
  | step (s n : String) : n ∈ neighborsOf graph s → n ≠ "" → PathTo graph target n →
      PathTo graph target s

/-- The C3 invariant: each status bucket is exactly the sublist of
`rootTaskIds` whose stored task currently has that status. -/
def statusPartitionInv (tasks : NormalizedTaskStore) : Prop :=
  ∀ status, tasks.idsByStatus.get status =
    tasks.rootTaskIds.filter
      (fun taskId =>
        match jsGet tasks.byId taskId with
        | some task => task.status = status
        | none => false)

/-- The C5 invariant: both history stacks hold at most `MAX_HISTORY`
records. -/
def historyBound (state : BoardState) : Prop :=
  state.undoStack.length ≤ MAX_HISTORY ∧ state.redoStack.length ≤ MAX_HISTORY

/-! ## Priority-queue traces (C4) -/

inductive PQOp (α : Type)
  | push (v : α)
  | pop

/-- Run a push/pop trace against a heap, collecting the values returned
by successful pops in order. -/
def runPQ {α : Type} [Inhabited α] (cmp : α → α → Int) (h : List α) :
    List (PQOp α) → List α × List α
  | [] => (h, [])
  | .push v :: rest => runPQ cmp (pqPush cmp h v) rest
  | .pop :: rest =>
    let popped := pqPop cmp h
    let run := runPQ cmp popped.2 rest
    match popped.1 with
    | some v => (run.1, v :: run.2)
    | none => (run.1, run.2)

/-- Number of pushes in a trace. -/
def pushCount {α : Type} : List (PQOp α) → Nat
  | [] => 0
  | .push _ :: rest => pushCount rest + 1
  | .pop :: rest => pushCount rest

/-! ## LRU cache traces (C7) -/

inductive LRUOp (κ ν : Type)
  | get (k : κ)
  | set (k : κ) (v : ν)

/-- Run a sequence of cache operations. -/
def runLRU {κ ν : Type} [DecidableEq κ] (c : LRUCache κ ν) :
    List (LRUOp κ ν) → LRUCache κ ν
  | [] => c
  | .get k :: rest => runLRU (c.get k).2 rest
  | .set k v :: rest => runLRU (c.set k v) rest

/-- The binary max-heap shape property: every non-root entry compares
`≤ 0` against its parent. -/
def heapOrdered {α : Type} [Inhabited α] (cmp : α → α → Int) (h : List α) : Prop :=
  ∀ i, 0 < i → i < h.length → cmp (h.getD i default) (h.getD ((i - 1) / 2) default) ≤ 0

/-! ## Concrete fixtures for witnesses and counterexamples -/

def taskA : Task := ⟨"A", "alpha", "", .backlog, .low, [], [], none, 0, 0⟩

def taskB : Task := ⟨"B", "beta", "", .todo, .low, [], [], none, 0, 0⟩

def wfStore : NormalizedTaskStore :=
  ⟨[("A", taskA), ("B", taskB)], ["A", "B"], ⟨["A"], ["B"], [], []⟩⟩

def wfState : BoardState := ⟨wfStore, [], [], [], [], [], 1⟩

def toastOlder : ToastMessage := ⟨"t-old", "older", 2, .info, 3⟩

def toastNewer : ToastMessage := ⟨"t-new", "newer", 2, .info, 9⟩

/-! # Theorems

## Toolkit: association-list lemmas -/

theorem jsGet_nil {κ α : Type} [DecidableEq κ] (k : κ) : jsGet ([] : List (κ × α)) k = none :=
  rfl

theorem jsGet_cons {κ α : Type} [DecidableEq κ] (x : κ × α) (l : List (κ × α)) (k : κ) :
    jsGet (x :: l) k = if x.1 = k then some x.2 else jsGet l k := by
  by_cases h : x.1 = k
  · unfold jsGet
    rw [List.find?_cons_of_pos _ (by simp [h])]
    simp [h]
  · unfold jsGet
    rw [List.find?_cons_of_neg _ (by simp [h])]
    simp [h]

theorem jsGet_append {κ α : Type} [DecidableEq κ] (a b : List (κ × α)) (k : κ) :
    jsGet (a ++ b) k = if (jsGet a k).isSome then jsGet a k else jsGet b k := by
  induction a with
  | nil => simp [jsGet_nil]
  | cons x l ih =>
    by_cases h : x.1 = k
    · simp [jsGet_cons, h]
    · simp [jsGet_cons, h, ih]

theorem jsGet_map_replace_ne {κ α : Type} [DecidableEq κ] (m : List (κ × α)) (k k' : κ)
    (v : α) (hne : ¬ k' = k) :
    jsGet (m.map (fun e => if e.1 = k then (k, v) else e)) k' = jsGet m k' := by
  induction m with
  | nil => rfl
  | cons e m ih =>
    by_cases he : e.1 = k
    · have hk : ¬ (k = k') := fun h => hne h.symm
      simp [jsGet_cons, he, hk, ih]
    · simp [jsGet_cons, he, ih]

theorem jsGet_map_replace_eq {κ α : Type} [DecidableEq κ] (m : List (κ × α)) (k : κ) (v : α)
    (hmem : ∃ e ∈ m, e.1 = k) :
    jsGet (m.map (fun e => if e.1 = k then (k, v) else e)) k = some v := by
  induction m with
  | nil => simp at hmem
  | cons e m ih =>
    by_cases he : e.1 = k
    · simp [jsGet_cons, he]
    · have hmem' : ∃ x ∈ m, x.1 = k := by
        rcases hmem with ⟨x, hx, hxk⟩
        cases hx with
        | head => exact absurd hxk he
        | tail _ htl => exact ⟨x, htl, hxk⟩
      simp [jsGet_cons, he, ih hmem']

/-- The central lookup/update law for JS objects and Maps. -/
theorem jsGet_jsSet {κ α : Type} [DecidableEq κ] (m : List (κ × α)) (k k' : κ) (v : α) :
    jsGet (jsSet m k v) k' = if k' = k then some v else jsGet m k' := by
  unfold jsSet
  by_cases hany : m.any (fun e => e.1 = k)
  · rw [if_pos hany]
    by_cases hk : k' = k
    · subst hk
      rw [if_pos rfl]
      exact jsGet_map_replace_eq m k' v (by simpa using hany)
    · rw [if_neg hk]
      exact jsGet_map_replace_ne m k k' v hk
  · rw [if_neg hany]
    have hnone : jsGet m k = none := by
      unfold jsGet
      rw [List.find?_eq_none.2]
      · rfl
      · intro e he
        simp only [List.any_eq_true, not_exists] at hany
        simpa using fun h => (hany e) (by simp [he, h])
    by_cases hk : k' = k
    · subst hk
      simp [jsGet_append, hnone, jsGet_cons]
    · rw [if_neg hk]
      rw [jsGet_append]
      by_cases hsome : (jsGet m k').isSome
      · rw [if_pos hsome]
      · rw [if_neg hsome]
        have hnone' : jsGet m k' = none := Option.not_isSome_iff_eq_none.mp hsome
        have hkk : ¬ k = k' := fun h => hk h.symm
        rw [hnone']
        simp [jsGet_cons, jsGet_nil, hkk]

theorem mem_keysOf_iff_any {κ α : Type} [DecidableEq κ] (m : List (κ × α)) (k : κ) :
    k ∈ keysOf m ↔ m.any (fun e => e.1 = k) = true := by
  simp [keysOf, List.any_eq_true]

theorem jsSet_of_not_mem {κ α : Type} [DecidableEq κ] (m : List (κ × α)) (k : κ) (v : α)
    (h : ¬ k ∈ keysOf m) : jsSet m k v = m ++ [(k, v)] := by
  unfold jsSet
  rw [if_neg]
  intro hany
  exact h ((mem_keysOf_iff_any m k).2 hany)

theorem keysOf_jsSet {κ α : Type} [DecidableEq κ] (m : List (κ × α)) (k : κ) (v : α) :
    keysOf (jsSet m k v) = if k ∈ keysOf m then keysOf m else keysOf m ++ [k] := by
  by_cases hmem : k ∈ keysOf m
  · rw [if_pos hmem]
    unfold jsSet
    rw [if_pos ((mem_keysOf_iff_any m k).1 hmem)]
    unfold keysOf
    rw [List.map_map]
    apply List.map_congr_left
    intro e _
    by_cases he : e.1 = k <;> simp [he]
  · rw [if_neg hmem, jsSet_of_not_mem m k v hmem]
    simp [keysOf]

/-! ## Toolkit: toast-machinery frame lemmas -/

@[simp]
theorem flushVisibleToasts_tasks (s : BoardState) : (flushVisibleToasts s).tasks = s.tasks :=
  rfl

@[simp]
theorem flushVisibleToasts_selected (s : BoardState) :
    (flushVisibleToasts s).selectedTaskIds = s.selectedTaskIds :=
  rfl

@[simp]
theorem flushVisibleToasts_undoStack (s : BoardState) :
    (flushVisibleToasts s).undoStack = s.undoStack :=
  rfl

@[simp]
theorem flushVisibleToasts_redoStack (s : BoardState) :
    (flushVisibleToasts s).redoStack = s.redoStack :=
  rfl

@[simp]
theorem flushVisibleToasts_revision (s : BoardState) :
    (flushVisibleToasts s).revision = s.revision :=
  rfl

@[simp]
theorem enqueueSystemToast_tasks (c : Nat) (n : Int) (s : BoardState) (m : String) (p : Int)
    (t : ToastTone) : (enqueueSystemToast c n s m p t).2.tasks = s.tasks :=
  rfl

@[simp]
theorem enqueueSystemToast_selected (c : Nat) (n : Int) (s : BoardState) (m : String) (p : Int)
    (t : ToastTone) : (enqueueSystemToast c n s m p t).2.selectedTaskIds = s.selectedTaskIds :=
  rfl

@[simp]
theorem enqueueSystemToast_undoStack (c : Nat) (n : Int) (s : BoardState) (m : String) (p : Int)
    (t : ToastTone) : (enqueueSystemToast c n s m p t).2.undoStack = s.undoStack :=
  rfl

@[simp]
theorem enqueueSystemToast_redoStack (c : Nat) (n : Int) (s : BoardState) (m : String) (p : Int)
    (t : ToastTone) : (enqueueSystemToast c n s m p t).2.redoStack = s.redoStack :=
  rfl

@[simp]
theorem enqueueSystemToast_revision (c : Nat) (n : Int) (s : BoardState) (m : String) (p : Int)
    (t : ToastTone) : (enqueueSystemToast c n s m p t).2.revision = s.revision :=
  rfl

@[simp]
theorem enqueueSystemToast_counter (c : Nat) (n : Int) (s : BoardState) (m : String) (p : Int)
    (t : ToastTone) : (enqueueSystemToast c n s m p t).1 = c + 1 :=
  rfl

/-! ## C10: toast lifecycle intents only touch the toast fields -/

/-- C10: for every state, the `enqueue_toast` and `dismiss_toast` intents
leave the tasks store (byId, rootTaskIds, idsByStatus), the selection
set, the undo stack, the redo stack, and the revision counter unchanged;
only the toast heap and the active toast list may change. -/
theorem toast_lifecycle_frame (counter : Nat) (now : Int) (state : BoardState)
    (toastId message : String) (priority : Int) (tone : ToastTone) :
    ((boardReducer counter now state (.dismiss_toast toastId)).2.tasks = state.tasks
      ∧ (boardReducer counter now state (.dismiss_toast toastId)).2.selectedTaskIds
          = state.selectedTaskIds
      ∧ (boardReducer counter now state (.dismiss_toast toastId)).2.undoStack = state.undoStack
      ∧ (boardReducer counter now state (.dismiss_toast toastId)).2.redoStack = state.redoStack
      ∧ (boardReducer counter now state (.dismiss_toast toastId)).2.revision = state.revision)
    ∧ ((boardReducer counter now state (.enqueue_toast message priority tone)).2.tasks
          = state.tasks
      ∧ (boardReducer counter now state (.enqueue_toast message priority tone)).2.selectedTaskIds
          = state.selectedTaskIds
      ∧ (boardReducer counter now state (.enqueue_toast message priority tone)).2.undoStack
          = state.undoStack
      ∧ (boardReducer counter now state (.enqueue_toast message priority tone)).2.redoStack
          = state.redoStack
      ∧ (boardReducer counter now state (.enqueue_toast message priority tone)).2.revision
          = state.revision) := by
  constructor
  · simp only [boardReducer]
    split
    · exact ⟨rfl, rfl, rfl, rfl, rfl⟩
    · exact ⟨rfl, rfl, rfl, rfl, rfl⟩
  · exact ⟨rfl, rfl, rfl, rfl, rfl⟩

/-! ## C5: bounded undo/redo history -/

theorem appendHistory_length_le (stack : List MoveRecord) (record : MoveRecord)
    (h : stack.length ≤ MAX_HISTORY) :
    (appendHistory stack record).length ≤ MAX_HISTORY := by
  unfold appendHistory
  simp only [MAX_HISTORY] at *
  split <;> simp <;> omega

theorem historyBound_step (counter : Nat) (now : Int) (state : BoardState)
    (action : BoardAction) (h : historyBound state) :
    historyBound (boardReducer counter now state action).2 := by
  obtain ⟨h1, h2⟩ := h
  cases action with
  | toggle_task_selection taskId =>
    simp only [boardReducer]
    split
    · exact ⟨h1, h2⟩
    · split
      · exact ⟨h1, h2⟩
      · exact ⟨h1, h2⟩
  | clear_selection =>
    simp only [boardReducer]
    split
    · exact ⟨h1, h2⟩
    · exact ⟨h1, h2⟩
  | select_many taskIds => exact ⟨h1, h2⟩
  | deselect_many taskIds =>
    simp only [boardReducer]
    split
    · exact ⟨h1, h2⟩
    · split
      · exact ⟨h1, h2⟩
      · exact ⟨h1, h2⟩
  | move_tasks taskIds nextStatus =>
    simp only [boardReducer, moveTasks]
    split
    · exact ⟨h1, h2⟩
    · constructor
      · simpa using appendHistory_length_le state.undoStack _ h1
      · simp [MAX_HISTORY]
  | bulk_move_selected nextStatus =>
    simp only [boardReducer]
    split
    · exact ⟨h1, h2⟩
    · simp only [moveTasks]
      split
      · exact ⟨h1, h2⟩
      · constructor
        · simpa using appendHistory_length_le state.undoStack _ h1
        · simp [MAX_HISTORY]
  | undo_move =>
    simp only [boardReducer]
    split
    · exact ⟨h1, h2⟩
    · constructor
      · simp only [enqueueSystemToast_undoStack]
        simp [List.length_dropLast]
        omega
      · simpa using appendHistory_length_le state.redoStack _ h2
  | redo_move =>
    simp only [boardReducer]
    split
    · exact ⟨h1, h2⟩
    · constructor
      · simpa using appendHistory_length_le state.undoStack _ h1
      · simp only [enqueueSystemToast_redoStack]
        simp [List.length_dropLast]
        omega
  | add_dependency taskId dependsOnTaskId =>
    simp only [boardReducer]
    split
    · exact ⟨h1, h2⟩
    · exact ⟨h1, h2⟩
    · split
      · exact ⟨h1, h2⟩
      · split
        · exact ⟨h1, h2⟩
        · split
          · exact ⟨h1, h2⟩
          · exact ⟨h1, h2⟩
  | dismiss_toast toastId =>
    simp only [boardReducer]
    split
    · exact ⟨h1, h2⟩
    · exact ⟨h1, h2⟩
  | enqueue_toast message priority tone => exact ⟨h1, h2⟩

theorem historyBound_run (counter : Nat) (state : BoardState)
    (ops : List (Int × BoardAction)) (h : historyBound state) :
    historyBound (runBoard counter state ops).2 := by
  induction ops generalizing counter state with
  | nil => exact h
  | cons op rest ih =>
    exact ih _ _ (historyBound_step counter op.1 state op.2 h)

/-- C5: starting from a state whose two history stacks hold at most
`MAX_HISTORY = 60` records, every sequence of intents keeps both stacks
at or below 60 records; and pushing a record onto a stack holding exactly
60 drops the oldest (front) record and appends the new one, leaving
length 60 with the surviving records in their original order. -/
theorem history_capacity :
    (∀ (counter : Nat) (state : BoardState) (ops : List (Int × BoardAction)),
      historyBound state → historyBound (runBoard counter state ops).2)
    ∧ (∀ (stack : List MoveRecord) (record : MoveRecord),
      stack.length = MAX_HISTORY →
        appendHistory stack record = stack.tail ++ [record]
          ∧ (appendHistory stack record).length = MAX_HISTORY) := by
  constructor
  · intro counter state ops h
    exact historyBound_run counter state ops h
  · intro stack record hlen
    have hfull : ¬ stack.length + 1 ≤ MAX_HISTORY := by omega
    constructor
    · unfold appendHistory
      rw [if_neg hfull]
      rw [List.drop_one]
    · unfold appendHistory
      rw [if_neg hfull]
      simp [MAX_HISTORY] at *
      omega

/-- Witness for C5 at a concrete state and a concrete full stack. -/
theorem history_capacity_witness :
    historyBound wfState
      ∧ historyBound (runBoard 0 wfState [(5, .move_tasks ["A"] .done), (6, .undo_move)]).2
      ∧ (List.replicate 60 (default : MoveRecord)).length = MAX_HISTORY
      ∧ appendHistory (List.replicate 60 (default : MoveRecord)) default
          = (List.replicate 60 (default : MoveRecord)).tail ++ [default] :=
  ⟨by simp [historyBound, wfState, MAX_HISTORY],
    history_capacity.1 0 wfState _ (by simp [historyBound, wfState, MAX_HISTORY]), by decide,
    (history_capacity.2 (List.replicate 60 default) default (by decide)).1⟩

/-! ## Toolkit: the heap operations permute their input -/

theorem count_set_balance {α : Type} [DecidableEq α] [Inhabited α] (l : List α) (n : Nat)
    (b : α) (hn : n < l.length) (a : α) :
    (l.set n b).count a + (if l.getD n default = a then 1 else 0)
      = l.count a + (if b = a then 1 else 0) := by
  induction l generalizing n with
  | nil => simp at hn
  | cons x xs ih =>
    cases n with
    | zero =>
      simp only [List.set_cons_zero, List.getD_cons_zero, List.count_cons]
      by_cases hb : b = a <;> by_cases hx : x = a <;> simp [hb, hx]
    | succ n =>
      have hn' : n < xs.length := by simpa using hn
      have hrec := ih n hn'
      simp only [List.set_cons_succ, List.getD_cons_succ, List.count_cons, beq_iff_eq]
      omega

theorem listSwap_perm {α : Type} [DecidableEq α] [Inhabited α] (h : List α) (i j : Nat)
    (hi : i < h.length) (hj : j < h.length) : (listSwap h i j).Perm h := by
  rw [List.perm_iff_count]
  intro a
  have hgd : (h.set i (h.getD j default)).getD j default = h.getD j default := by
    rw [List.getD_eq_getElem?_getD, List.getElem?_set]
    by_cases hij : i = j
    · subst hij
      simp [hi, List.getD_eq_getElem?_getD]
    · simp [hij, List.getD_eq_getElem?_getD]
  have e1 := count_set_balance (h.set i (h.getD j default)) j (h.getD i default)
    (by simpa using hj) a
  have e2 := count_set_balance h i (h.getD j default) hi a
  rw [hgd] at e1
  simp only [listSwap]
  omega

theorem siftUp_perm {α : Type} [DecidableEq α] [Inhabited α] (cmp : α → α → Int)
    (h : List α) (i : Nat) (hi : i < h.length) : (siftUp cmp h i).Perm h := by
  induction i using Nat.strong_induction_on generalizing h with
  | _ i ih =>
    rw [siftUp]
    dsimp only
    split
    · exact List.Perm.refl h
    · split
      · exact List.Perm.refl h
      · rename_i hne _
        have hparent : (i - 1) / 2 < i := by omega
        have hlen : (listSwap h i ((i - 1) / 2)).length = h.length := by
          simp [listSwap]
        exact (ih _ hparent _ (by omega)).trans (listSwap_perm h i _ hi (by omega))

theorem siftDownLargest_bounds {α : Type} [Inhabited α] (cmp : α → α → Int) (h : List α)
    (i : Nat) :
    siftDownLargest cmp h i = i
      ∨ (i < siftDownLargest cmp h i ∧ siftDownLargest cmp h i < h.length) := by
  simp only [siftDownLargest]
  split_ifs <;> omega

theorem siftDown_perm {α : Type} [DecidableEq α] [Inhabited α] (cmp : α → α → Int)
    (h : List α) (i : Nat) : (siftDown cmp h i).Perm h := by
  have main : ∀ (n : Nat) (h : List α) (i : Nat), h.length - i ≤ n →
      (siftDown cmp h i).Perm h := by
    intro n
    induction n with
    | zero =>
      intro h i hle
      rw [siftDown]
      have : ¬ i < h.length := by omega
      simp [this]
    | succ n ih =>
      intro h i hle
      rw [siftDown]
      dsimp only
      split
      · split
        · exact List.Perm.refl h
        · rename_i hlt hne
          rcases siftDownLargest_bounds cmp h i with hb | ⟨hgt, hub⟩
          · exact absurd hb hne
          · have hlen : (listSwap h i (siftDownLargest cmp h i)).length = h.length := by
              simp [listSwap]
            exact (ih _ _ (by omega)).trans (listSwap_perm h i _ hlt hub)
      · exact List.Perm.refl h
  exact main (h.length - i) h i (Nat.le_refl _)

theorem heapifyAux_perm {α : Type} [DecidableEq α] [Inhabited α] (cmp : α → α → Int)
    (h : List α) (n : Nat) : (heapifyAux cmp h n).Perm h := by
  induction n generalizing h with
  | zero => exact List.Perm.refl h
  | succ n ih => exact (ih _).trans (siftDown_perm cmp h n)

theorem heapify_perm {α : Type} [DecidableEq α] [Inhabited α] (cmp : α → α → Int)
    (h : List α) : (heapify cmp h).Perm h := by
  unfold heapify
  split
  · exact heapifyAux_perm cmp h _
  · exact List.Perm.refl h

theorem pqPush_perm {α : Type} [DecidableEq α] [Inhabited α] (cmp : α → α → Int)
    (h : List α) (v : α) : (pqPush cmp h v).Perm (h ++ [v]) :=
  siftUp_perm cmp (h ++ [v]) h.length (by simp)

theorem pqPop_perm {α : Type} [DecidableEq α] [Inhabited α] (cmp : α → α → Int)
    (h : List α) : ((pqPop cmp h).1.toList ++ (pqPop cmp h).2).Perm h := by
  match h with
  | [] => exact List.Perm.refl []
  | [x] => simp [pqPop]
  | x :: y :: rest =>
    simp only [pqPop, Option.toList_some, List.singleton_append]
    apply List.Perm.cons x
    have hperm := siftDown_perm cmp
      (((x :: y :: rest).dropLast).set 0 ((x :: y :: rest).getD ((x :: y :: rest).length - 1) default)) 0
    apply hperm.trans
    have hdl : (x :: y :: rest).dropLast = x :: (y :: rest).dropLast := by
      simp
    have htail : (x :: y :: rest).getD ((x :: y :: rest).length - 1) default
        = (y :: rest).getLast (by simp) := by
      rw [List.getD_eq_getElem?_getD]
      have hlt : (x :: y :: rest).length - 1 < (x :: y :: rest).length := by simp
      rw [List.getElem?_eq_getElem hlt]
      rw [List.getLast_eq_getElem]
      simp
    rw [hdl, htail, List.set_cons_zero]
    have heq : (y :: rest).dropLast ++ [(y :: rest).getLast (by simp)] = y :: rest :=
      List.dropLast_append_getLast (by simp)
    apply ((List.perm_append_singleton _ _).symm).trans
    rw [heq]

/-- The flush loop moves toasts between its two lists without creating,
dropping, or duplicating any. -/
theorem flushLoop_perm (active heap : List ToastMessage) :
    ((flushLoop active heap).1 ++ (flushLoop active heap).2).Perm (active ++ heap) := by
  have main : ∀ (fuel : Nat) (active heap : List ToastMessage),
      MAX_ACTIVE_TOASTS - active.length ≤ fuel →
      ((flushLoop active heap).1 ++ (flushLoop active heap).2).Perm (active ++ heap) := by
    intro fuel
    induction fuel with
    | zero =>
      intro active heap hle
      rw [flushLoop]
      have : ¬ (active.length < MAX_ACTIVE_TOASTS ∧ 0 < heap.length) := by
        simp only [MAX_ACTIVE_TOASTS] at *
        omega
      rw [if_neg this]
    | succ fuel ih =>
      intro active heap hle
      rw [flushLoop]
      split
      · rename_i hcond
        have hpop := pqPop_perm toastComparator heap
        split
        · rename_i nextToast heap' hmatch
          have happ := ih (active ++ [nextToast]) heap'
            (by simp only [MAX_ACTIVE_TOASTS, List.length_append, List.length_cons,
                  List.length_nil] at *; omega)
          apply happ.trans
          rw [hmatch] at hpop
          simp only [Option.toList_some, List.singleton_append] at hpop
          have hassoc : (active ++ [nextToast]) ++ heap' = active ++ (nextToast :: heap') := by
            simp
          rw [hassoc]
          exact List.Perm.append_left active hpop
        · rename_i heap' hmatch
          rw [hmatch] at hpop
          simp only [Option.toList_none, List.nil_append] at hpop
          exact List.Perm.append_left active hpop
      · exact List.Perm.refl _
  exact main (MAX_ACTIVE_TOASTS - active.length) active heap (Nat.le_refl _)

/-- Enqueueing a system toast adds exactly the created toast to the
combined (heap ++ active) toast pool, up to reordering. -/
theorem enqueueSystemToast_toasts_perm (c : Nat) (n : Int) (s : BoardState) (m : String)
    (p : Int) (t : ToastTone) :
    ((enqueueSystemToast c n s m p t).2.toastHeap
        ++ (enqueueSystemToast c n s m p t).2.activeToasts).Perm
      ((createToast c n m p t).2 :: (s.toastHeap ++ s.activeToasts)) := by
  unfold enqueueSystemToast flushVisibleToasts
  simp only
  apply (List.perm_append_comm).trans
  apply (flushLoop_perm _ _).trans
  have h1 : (heapify toastComparator (pqPush toastComparator
      (heapify toastComparator s.toastHeap) (createToast c n m p t).2)).Perm
      (s.toastHeap ++ [(createToast c n m p t).2]) :=
    ((heapify_perm _ _).trans (pqPush_perm _ _ _)).trans
      (List.Perm.append_right _ (heapify_perm _ _))
  apply (List.Perm.append_left s.activeToasts h1).trans
  apply (List.perm_append_comm).trans
  apply (List.Perm.append_right s.activeToasts (List.perm_append_singleton _ _)).trans
  exact List.Perm.refl _

/-! ## C6: an empty move record degrades to a notification-only step -/

/-- C6: when `createMoveRecord` yields no eligible task (`null`), the
`move_tasks` intent leaves the tasks store, selection set, undo stack,
redo stack, and revision unchanged, and enqueues exactly one
informational priority-1 toast with message
"No eligible tasks were moved." into the toast pool. -/
theorem empty_move_noop (counter : Nat) (now : Int) (state : BoardState)
    (taskIds : List String) (nextStatus : TaskStatus)
    (h : createMoveRecord taskIds nextStatus state.tasks.byId now = none) :
    (boardReducer counter now state (.move_tasks taskIds nextStatus)).2.tasks = state.tasks
    ∧ (boardReducer counter now state (.move_tasks taskIds nextStatus)).2.selectedTaskIds
        = state.selectedTaskIds
    ∧ (boardReducer counter now state (.move_tasks taskIds nextStatus)).2.undoStack
        = state.undoStack
    ∧ (boardReducer counter now state (.move_tasks taskIds nextStatus)).2.redoStack
        = state.redoStack
    ∧ (boardReducer counter now state (.move_tasks taskIds nextStatus)).2.revision
        = state.revision
    ∧ ((boardReducer counter now state (.move_tasks taskIds nextStatus)).2.toastHeap
          ++ (boardReducer counter now state (.move_tasks taskIds nextStatus)).2.activeToasts).Perm
        (⟨"toast-" ++ toString (counter + 1), "No eligible tasks were moved.", 1, .info, now⟩
          :: (state.toastHeap ++ state.activeToasts)) := by
  have hred : boardReducer counter now state (.move_tasks taskIds nextStatus)
      = enqueueSystemToast counter now state "No eligible tasks were moved." 1 .info := by
    simp only [boardReducer, moveTasks, h]
  rw [hred]
  refine ⟨rfl, rfl, rfl, rfl, rfl, ?_⟩
  exact enqueueSystemToast_toasts_perm counter now state "No eligible tasks were moved." 1 .info

/-- Witness for C6: moving an empty id list over the two-task fixture. -/
theorem empty_move_noop_witness :
    createMoveRecord [] TaskStatus.done wfState.tasks.byId 7 = none
      ∧ (boardReducer 0 7 wfState (.move_tasks [] .done)).2.tasks = wfState.tasks
      ∧ ((boardReducer 0 7 wfState (.move_tasks [] .done)).2.toastHeap
            ++ (boardReducer 0 7 wfState (.move_tasks [] .done)).2.activeToasts).Perm
          (⟨"toast-" ++ toString 1, "No eligible tasks were moved.", 1, .info, 7⟩
            :: (wfState.toastHeap ++ wfState.activeToasts)) :=
  ⟨by decide,
    (empty_move_noop 0 7 wfState [] .done (by decide)).1,
    (empty_move_noop 0 7 wfState [] .done (by decide)).2.2.2.2.2⟩

/-! ## C3: `idsByStatus` is the status partition of `rootTaskIds` -/

theorem jsGet_idKeyed {byId : List (String × Task)} (hk : idKeyed byId) {k : String}
    {task : Task} (h : jsGet byId k = some task) : task.id = k := by
  unfold jsGet at h
  rcases Option.map_eq_some'.1 h with ⟨e, hfind, he2⟩
  have hmem := List.mem_of_find?_eq_some hfind
  have hpred := List.find?_some hfind
  have hk1 : e.1 = k := by simpa using hpred
  calc task.id = e.2.id := by rw [he2]
    _ = e.1 := hk e hmem
    _ = k := hk1

theorem statusMap_get_push (m : StatusMap) (st st' : TaskStatus) (id : String) :
    (m.push st id).get st' = if st' = st then m.get st' ++ [id] else m.get st' := by
  cases st <;> cases st' <;> simp [StatusMap.push, StatusMap.get]

/-- The status-match predicate used by the partition invariant. -/
theorem buildStatusBuckets_get (byId : List (String × Task)) (hk : idKeyed byId)
    (roots : List String) (st : TaskStatus) :
    (buildStatusBuckets byId roots).get st
      = roots.filter
        (fun taskId =>
          match jsGet byId taskId with
          | some task => task.status = st
          | none => false) := by
  have aux : ∀ (rs : List String) (b : StatusMap),
      ((rs.foldl
        (fun buckets taskId =>
          match jsGet byId taskId with
          | none => buckets
          | some task => buckets.push task.status task.id) b).get st)
        = b.get st ++ rs.filter
          (fun taskId =>
            match jsGet byId taskId with
            | some task => task.status = st
            | none => false) := by
    intro rs
    induction rs with
    | nil => intro b; simp
    | cons r rs ih =>
      intro b
      cases hjs : jsGet byId r with
      | none =>
        simp only [List.foldl_cons, hjs]
        rw [ih b]
        congr 1
        rw [List.filter_cons_of_neg (by simp [hjs])]
      | some task =>
        have hid : task.id = r := jsGet_idKeyed hk hjs
        simp only [List.foldl_cons, hjs]
        rw [ih (b.push task.status task.id)]
        rw [statusMap_get_push]
        by_cases hst : task.status = st
        · rw [if_pos (by rw [hst]), List.filter_cons_of_pos (by simp [hjs, hst])]
          rw [hid, List.append_assoc]
          rfl
        · rw [if_neg (fun hh => hst hh.symm),
            List.filter_cons_of_neg (by simp [hjs, hst])]
  have hempty : emptyStatusMap.get st = [] := by cases st <;> rfl
  unfold buildStatusBuckets
  rw [aux roots emptyStatusMap, hempty]
  rfl

theorem idKeyed_jsSet {m : List (String × Task)} {k : String} {v : Task}
    (hk : idKeyed m) (hv : v.id = k) : idKeyed (jsSet m k v) := by
  unfold jsSet
  split
  · intro e he
    rcases List.mem_map.1 he with ⟨e0, hmem, heq⟩
    by_cases h0 : e0.1 = k
    · rw [← heq]
      simp [h0, hv]
    · rw [← heq]
      simp only [h0, if_false]
      exact hk e0 hmem
  · intro e he
    rcases List.mem_append.1 he with hmem | hmem
    · exact hk e hmem
    · simp at hmem
      rw [hmem]
      exact hv

theorem applyStatusMap_fold_idKeyed (statusById : List (String × TaskStatus)) (now : Int)
    (acc : List (String × Task) × Bool) (hk : idKeyed acc.1) :
    idKeyed (statusById.foldl
      (fun (acc : List (String × Task) × Bool) (entry : String × TaskStatus) =>
        match jsGet acc.1 entry.1 with
        | none => acc
        | some task =>
          if task.parentId ≠ none then acc
          else if task.status = entry.2 then acc
          else (jsSet acc.1 entry.1 { task with status := entry.2, updatedAt := now }, true))
      acc).1 := by
  induction statusById generalizing acc with
  | nil => exact hk
  | cons entry rest ih =>
    simp only [List.foldl_cons]
    cases hjs : jsGet acc.1 entry.1 with
    | none =>
      simp only [hjs]
      exact ih acc hk
    | some task =>
      simp only [hjs]
      split
      · exact ih acc hk
      · split
        · exact ih acc hk
        · apply ih
          apply idKeyed_jsSet hk
          show task.id = entry.1
          exact jsGet_idKeyed hk hjs

theorem applyStatusMap_idKeyed (tasks : NormalizedTaskStore)
    (statusById : List (String × TaskStatus)) (now : Int) (hk : idKeyed tasks.byId) :
    idKeyed (applyStatusMap tasks statusById now).byId := by
  unfold applyStatusMap
  dsimp only
  split
  · exact hk
  · exact applyStatusMap_fold_idKeyed statusById now (tasks.byId, false) hk

theorem applyStatusMap_partition (tasks : NormalizedTaskStore)
    (statusById : List (String × TaskStatus)) (now : Int) (hk : idKeyed tasks.byId)
    (hinv : statusPartitionInv tasks) :
    statusPartitionInv (applyStatusMap tasks statusById now) := by
  have hkfold := applyStatusMap_fold_idKeyed statusById now (tasks.byId, false) hk
  unfold applyStatusMap
  dsimp only
  split
  · exact hinv
  · intro st
    exact buildStatusBuckets_get _ hkfold tasks.rootTaskIds st

theorem filter_status_stable (byId : List (String × Task)) (roots : List String)
    (k : String) (task updated : Task) (hjs : jsGet byId k = some task)
    (hstat : updated.status = task.status) (st : TaskStatus) :
    (roots.filter
      (fun r =>
        match jsGet (jsSet byId k updated) r with
        | some t => t.status = st
        | none => false))
      = roots.filter
        (fun r =>
          match jsGet byId r with
          | some t => t.status = st
          | none => false) := by
  apply List.filter_congr
  intro r _
  rw [jsGet_jsSet]
  by_cases hr : r = k
  · simp only [hr, if_true, hjs, hstat]
  · simp only [hr, if_false]

/-- C3: after every intent processed by the board reducer, starting from
an id-keyed store where the invariant holds, `idsByStatus` is exactly the
partition of `rootTaskIds` by each root task's current status, each
bucket in `rootTaskIds` order (and the store stays id-keyed). -/
theorem status_buckets_partition (counter : Nat) (now : Int) (state : BoardState)
    (action : BoardAction) (hk : idKeyed state.tasks.byId)
    (hinv : statusPartitionInv state.tasks) :
    statusPartitionInv (boardReducer counter now state action).2.tasks
      ∧ idKeyed (boardReducer counter now state action).2.tasks.byId := by
  cases action with
  | toggle_task_selection taskId =>
    simp only [boardReducer]
    split
    · exact ⟨hinv, hk⟩
    · split
      · exact ⟨hinv, hk⟩
      · exact ⟨hinv, hk⟩
  | clear_selection =>
    simp only [boardReducer]
    split
    · exact ⟨hinv, hk⟩
    · exact ⟨hinv, hk⟩
  | select_many taskIds => exact ⟨hinv, hk⟩
  | deselect_many taskIds =>
    simp only [boardReducer]
    split
    · exact ⟨hinv, hk⟩
    · split
      · exact ⟨hinv, hk⟩
      · exact ⟨hinv, hk⟩
  | move_tasks taskIds nextStatus =>
    simp only [boardReducer, moveTasks]
    split
    · exact ⟨hinv, hk⟩
    · constructor
      · simpa using applyStatusMap_partition state.tasks _ now hk hinv
      · simpa using applyStatusMap_idKeyed state.tasks _ now hk
  | bulk_move_selected nextStatus =>
    simp only [boardReducer]
    split
    · exact ⟨hinv, hk⟩
    · simp only [moveTasks]
      split
      · exact ⟨hinv, hk⟩
      · constructor
        · simpa using applyStatusMap_partition state.tasks _ now hk hinv
        · simpa using applyStatusMap_idKeyed state.tasks _ now hk
  | undo_move =>
    simp only [boardReducer]
    split
    · exact ⟨hinv, hk⟩
    · constructor
      · simpa using applyStatusMap_partition state.tasks _ now hk hinv
      · simpa using applyStatusMap_idKeyed state.tasks _ now hk
  | redo_move =>
    simp only [boardReducer]
    split
    · exact ⟨hinv, hk⟩
    · constructor
      · simpa using applyStatusMap_partition state.tasks _ now hk hinv
      · simpa using applyStatusMap_idKeyed state.tasks _ now hk
  | add_dependency taskId dependsOnTaskId =>
    simp only [boardReducer]
    split
    · exact ⟨hinv, hk⟩
    · exact ⟨hinv, hk⟩
    · rename_i task dependencyTask hjs1 hjs2
      split
      · exact ⟨hinv, hk⟩
      · split
        · exact ⟨hinv, hk⟩
        · split
          · exact ⟨hinv, hk⟩
          · have hid : task.id = taskId := jsGet_idKeyed hk hjs1
            constructor
            · intro st
              simp only [enqueueSystemToast_tasks]
              rw [filter_status_stable state.tasks.byId state.tasks.rootTaskIds task.id task
                { task with
                  dependencyIds := task.dependencyIds ++ [dependencyTask.id]
                  updatedAt := now }
                (by rw [hid]; exact hjs1) rfl st]
              exact hinv st
            · simp only [enqueueSystemToast_tasks]
              exact idKeyed_jsSet hk rfl
  | dismiss_toast toastId =>
    simp only [boardReducer]
    split
    · exact ⟨hinv, hk⟩
    · exact ⟨hinv, hk⟩
  | enqueue_toast message priority tone => exact ⟨hinv, hk⟩

/-- Witness for C3 on the concrete two-task fixture and a move intent. -/
theorem status_buckets_partition_witness :
    idKeyed wfState.tasks.byId ∧ statusPartitionInv wfState.tasks
      ∧ statusPartitionInv
          (boardReducer 0 9 wfState (.move_tasks ["A", "B"] .done)).2.tasks :=
  ⟨by unfold idKeyed; decide, by unfold statusPartitionInv; decide,
    (status_buckets_partition 0 9 wfState (.move_tasks ["A", "B"] .done)
      (by unfold idKeyed; decide) (by unfold statusPartitionInv; decide)).1⟩

/-! ## C1: applyStatusMap lookup behaviour -/

theorem applyFold_step_other (now : Int) (acc : List (String × Task) × Bool)
    (e : String × TaskStatus) (k : String) (hne : ¬ e.1 = k) :
    jsGet ((fun (acc : List (String × Task) × Bool) (entry : String × TaskStatus) =>
      match jsGet acc.1 entry.1 with
      | none => acc
      | some task =>
        if task.parentId ≠ none then acc
        else if task.status = entry.2 then acc
        else (jsSet acc.1 entry.1 { task with status := entry.2, updatedAt := now }, true))
      acc e).1 k = jsGet acc.1 k := by
  cases hjs : jsGet acc.1 e.1 with
  | none => simp only [hjs]
  | some task =>
    simp only [hjs]
    split
    · rfl
    · split
      · rfl
      · simp only [jsGet_jsSet, hne]
        rw [if_neg (fun hh => hne hh.symm)]

theorem applyFold_absent (now : Int) (l : List (String × TaskStatus))
    (acc : List (String × Task) × Bool) (k : String) (hk : ¬ k ∈ keysOf l) :
    jsGet ((l.foldl (fun (acc : List (String × Task) × Bool) (entry : String × TaskStatus) =>
      match jsGet acc.1 entry.1 with
      | none => acc
      | some task =>
        if task.parentId ≠ none then acc
        else if task.status = entry.2 then acc
        else (jsSet acc.1 entry.1 { task with status := entry.2, updatedAt := now }, true))
      acc)).1 k = jsGet acc.1 k := by
  induction l generalizing acc with
  | nil => rfl
  | cons e l ih =>
    have hne : ¬ e.1 = k := by
      intro hh
      exact hk (by simp [keysOf, hh])
    have hk' : ¬ k ∈ keysOf l := by
      intro hh
      exact hk (by simp [keysOf] at hh ⊢; exact Or.inr hh)
    simp only [List.foldl_cons]
    rw [ih _ hk', applyFold_step_other now acc e k hne]

theorem applyFold_changed_mono (now : Int) (l : List (String × TaskStatus))
    (acc : List (String × Task) × Bool) (hacc : acc.2 = true) :
    ((l.foldl (fun (acc : List (String × Task) × Bool) (entry : String × TaskStatus) =>
      match jsGet acc.1 entry.1 with
      | none => acc
      | some task =>
        if task.parentId ≠ none then acc
        else if task.status = entry.2 then acc
        else (jsSet acc.1 entry.1 { task with status := entry.2, updatedAt := now }, true))
      acc)).2 = true := by
  induction l generalizing acc with
  | nil => exact hacc
  | cons e l ih =>
    simp only [List.foldl_cons]
    apply ih
    cases hjs : jsGet acc.1 e.1 with
    | none => simpa only [hjs] using hacc
    | some task =>
      simp only [hjs]
      split
      · exact hacc
      · split
        · exact hacc
        · rfl

theorem applyFold_lookup (now : Int) (l : List (String × TaskStatus))
    (acc : List (String × Task) × Bool) (k : String) (st : TaskStatus) (t : Task)
    (hnodup : (keysOf l).Nodup) (hmem : (k, st) ∈ l) (hjs : jsGet acc.1 k = some t)
    (hp : t.parentId = none) (hne : ¬ t.status = st) :
    jsGet ((l.foldl (fun (acc : List (String × Task) × Bool) (entry : String × TaskStatus) =>
      match jsGet acc.1 entry.1 with
      | none => acc
      | some task =>
        if task.parentId ≠ none then acc
        else if task.status = entry.2 then acc
        else (jsSet acc.1 entry.1 { task with status := entry.2, updatedAt := now }, true))
      acc)).1 k = some { t with status := st, updatedAt := now }
    ∧ ((l.foldl (fun (acc : List (String × Task) × Bool) (entry : String × TaskStatus) =>
      match jsGet acc.1 entry.1 with
      | none => acc
      | some task =>
        if task.parentId ≠ none then acc
        else if task.status = entry.2 then acc
        else (jsSet acc.1 entry.1 { task with status := entry.2, updatedAt := now }, true))
      acc)).2 = true := by
  induction l generalizing acc with
  | nil => cases hmem
  | cons e l ih =>
    have hnodup' : (keysOf l).Nodup := (List.nodup_cons.mp hnodup).2
    cases hmem with
    | head =>
      have hkl : ¬ k ∈ keysOf l := (List.nodup_cons.mp hnodup).1
      simp only [List.foldl_cons, hjs]
      rw [if_neg (by simp [hp]), if_neg hne]
      constructor
      · rw [applyFold_absent now l _ k hkl]
        simp [jsGet_jsSet]
      · exact applyFold_changed_mono now l _ rfl
    | tail _ htl =>
      have hkmem : k ∈ keysOf l := List.mem_map.2 ⟨(k, st), htl, rfl⟩
      have hek : ¬ e.1 = k := by
        intro hh
        apply (List.nodup_cons.mp hnodup).1
        show e.1 ∈ keysOf l
        rw [hh]
        exact hkmem
      simp only [List.foldl_cons]
      exact ih _ hnodup' htl
        (by rw [applyFold_step_other now acc e k hek]; exact hjs)

/-- If `(k, st)` is one of the entries of a duplicate-free status map and
the stored task `t` under `k` is a root task with a different status,
`applyStatusMap` stores exactly the status-and-timestamp update of `t`
under `k`. -/
theorem applyStatusMap_lookup (tasks : NormalizedTaskStore)
    (statusById : List (String × TaskStatus)) (now : Int) (k : String) (st : TaskStatus)
    (t : Task) (hnodup : (keysOf statusById).Nodup) (hmem : (k, st) ∈ statusById)
    (hjs : jsGet tasks.byId k = some t) (hp : t.parentId = none) (hne : ¬ t.status = st) :
    jsGet (applyStatusMap tasks statusById now).byId k
      = some { t with status := st, updatedAt := now } := by
  obtain ⟨h1, h2⟩ := applyFold_lookup now statusById (tasks.byId, false) k st t
    hnodup hmem hjs hp hne
  unfold applyStatusMap
  dsimp only
  split
  · rename_i hfalse
    rw [h2] at hfalse
    cases hfalse
  · exact h1

/-! ## C1: createMoveRecord characterization -/

theorem jsSetAdd_nodup {κ : Type} [DecidableEq κ] (s : List κ) (x : κ) (h : s.Nodup) :
    (jsSetAdd s x).Nodup := by
  unfold jsSetAdd
  split
  · exact h
  · rename_i hx
    simp [List.nodup_append, h, hx]

theorem jsSetOfList_nodup {κ : Type} [DecidableEq κ] (l : List κ) :
    (jsSetOfList l).Nodup := by
  have aux : ∀ (acc : List κ), acc.Nodup → (l.foldl jsSetAdd acc).Nodup := by
    induction l with
    | nil => intro acc h; exact h
    | cons x l ih =>
      intro acc h
      exact ih _ (jsSetAdd_nodup acc x h)
  exact aux [] List.nodup_nil

theorem keysOf_filterMap {β : Type} (l : List String)
    (F : String → Option (String × β)) (hF : ∀ k p, F k = some p → p.1 = k) :
    keysOf (l.filterMap F) = l.filter (fun k => (F k).isSome) := by
  induction l with
  | nil => rfl
  | cons k l ih =>
    cases hfk : F k with
    | none =>
      rw [List.filterMap_cons_none hfk, List.filter_cons_of_neg (by simp [hfk])]
      exact ih
    | some p =>
      rw [List.filterMap_cons_some hfk, List.filter_cons_of_pos (by simp [hfk])]
      unfold keysOf at *
      simp only [List.map_cons, ih, hF k p hfk]

theorem createMoveRecord_fold (byId : List (String × Task)) (ns : TaskStatus)
    (l : List String) (acc1 acc2 : List (String × TaskStatus)) (hnd : l.Nodup)
    (h1 : ∀ k ∈ l, ¬ k ∈ keysOf acc1) (h2 : ∀ k ∈ l, ¬ k ∈ keysOf acc2) :
    l.foldl (fun (acc : List (String × TaskStatus) × List (String × TaskStatus))
        (taskId : String) =>
      match jsGet byId taskId with
      | none => acc
      | some task =>
        if task.parentId ≠ none then acc
        else if task.status = ns then acc
        else (jsSet acc.1 taskId task.status, jsSet acc.2 taskId ns)) (acc1, acc2)
      = (acc1 ++ l.filterMap (fun k =>
            match jsGet byId k with
            | none => none
            | some task =>
              if task.parentId ≠ none then none
              else if task.status = ns then none
              else some (k, task.status)),
          acc2 ++ l.filterMap (fun k =>
            match jsGet byId k with
            | none => none
            | some task =>
              if task.parentId ≠ none then none
              else if task.status = ns then none
              else some (k, ns))) := by
  induction l generalizing acc1 acc2 with
  | nil => simp
  | cons k l ih =>
    have hnd' : l.Nodup := (List.nodup_cons.mp hnd).2
    have hkl : ¬ k ∈ l := (List.nodup_cons.mp hnd).1
    simp only [List.foldl_cons]
    cases hjs : jsGet byId k with
    | none =>
      simp only [hjs]
      rw [ih acc1 acc2 hnd' (fun x hx => h1 x (List.mem_cons_of_mem k hx))
        (fun x hx => h2 x (List.mem_cons_of_mem k hx))]
      rw [List.filterMap_cons_none (by simp [hjs]), List.filterMap_cons_none (by simp [hjs])]
    | some task =>
      simp only [hjs]
      split
      · rename_i hpar
        rw [ih acc1 acc2 hnd' (fun x hx => h1 x (List.mem_cons_of_mem k hx))
          (fun x hx => h2 x (List.mem_cons_of_mem k hx))]
        rw [List.filterMap_cons_none (by simp [hjs, hpar]),
          List.filterMap_cons_none (by simp [hjs, hpar])]
      · rename_i hpar
        split
        · rename_i hst
          rw [ih acc1 acc2 hnd' (fun x hx => h1 x (List.mem_cons_of_mem k hx))
            (fun x hx => h2 x (List.mem_cons_of_mem k hx))]
          rw [List.filterMap_cons_none (by simp [hjs, hpar, hst]),
            List.filterMap_cons_none (by simp [hjs, hpar, hst])]
        · rename_i hst
          rw [jsSet_of_not_mem acc1 k task.status (h1 k (List.mem_cons_self k l)),
            jsSet_of_not_mem acc2 k ns (h2 k (List.mem_cons_self k l))]
          rw [ih (acc1 ++ [(k, task.status)]) (acc2 ++ [(k, ns)]) hnd'
            (fun x hx => by
              have hx1 : ¬ x ∈ keysOf acc1 := h1 x (List.mem_cons_of_mem k hx)
              have hxk : ¬ x = k := fun hh => hkl (hh ▸ hx)
              unfold keysOf at *
              rw [List.map_append]
              intro hmem
              rcases List.mem_append.1 hmem with hmem | hmem
              · exact hx1 hmem
              · simp at hmem
                exact hxk hmem)
            (fun x hx => by
              have hx2 : ¬ x ∈ keysOf acc2 := h2 x (List.mem_cons_of_mem k hx)
              have hxk : ¬ x = k := fun hh => hkl (hh ▸ hx)
              unfold keysOf at *
              rw [List.map_append]
              intro hmem
              rcases List.mem_append.1 hmem with hmem | hmem
              · exact hx2 hmem
              · simp at hmem
                exact hxk hmem)]
          have hparr : task.parentId = none := by simpa using hpar
          simp [List.filterMap_cons, hjs, hpar, hparr, hst]

theorem createMoveRecord_some (taskIds : List String) (ns : TaskStatus)
    (byId : List (String × Task)) (now : Int) (rec : MoveRecord)
    (h : createMoveRecord taskIds ns byId now = some rec) :
    rec.fromStatusById = (jsSetOfList taskIds).filterMap (fun k =>
        match jsGet byId k with
        | none => none
        | some task =>
          if task.parentId ≠ none then none
          else if task.status = ns then none
          else some (k, task.status))
      ∧ rec.toStatusById = (jsSetOfList taskIds).filterMap (fun k =>
        match jsGet byId k with
        | none => none
        | some task =>
          if task.parentId ≠ none then none
          else if task.status = ns then none
          else some (k, ns)) := by
  unfold createMoveRecord at h
  dsimp only at h
  rw [createMoveRecord_fold byId ns (jsSetOfList taskIds) [] [] (jsSetOfList_nodup taskIds)
    (by intro k _ hk; cases hk) (by intro k _ hk; cases hk)] at h
  simp only [List.nil_append] at h
  split at h
  · cases h
  · obtain ⟨rfl⟩ := Option.some.inj h
    exact ⟨rfl, rfl⟩

/-- C1's working form: every id in an accepted move record points at a
stored root task whose status differs from the target, and the record
maps it from that status to the target; both key lists are
duplicate-free. -/
theorem createMoveRecord_props (taskIds : List String) (ns : TaskStatus)
    (byId : List (String × Task)) (now : Int) (rec : MoveRecord)
    (h : createMoveRecord taskIds ns byId now = some rec) :
    (∀ k ∈ keysOf rec.fromStatusById, ∃ t, jsGet byId k = some t ∧ t.parentId = none
      ∧ ¬ t.status = ns ∧ (k, t.status) ∈ rec.fromStatusById ∧ (k, ns) ∈ rec.toStatusById)
    ∧ (keysOf rec.fromStatusById).Nodup ∧ (keysOf rec.toStatusById).Nodup := by
  obtain ⟨hf, ht⟩ := createMoveRecord_some taskIds ns byId now rec h
  have hFkey : ∀ (k : String) (p : String × TaskStatus),
      (match jsGet byId k with
        | none => none
        | some task =>
          if task.parentId ≠ none then none
          else if task.status = ns then none
          else some (k, task.status)) = some p → p.1 = k := by
    intro k p hp
    cases hjs : jsGet byId k with
    | none => rw [hjs] at hp; cases hp
    | some task =>
      rw [hjs] at hp
      dsimp only at hp
      by_cases hc1 : task.parentId ≠ none
      · rw [if_pos hc1] at hp; cases hp
      · rw [if_neg hc1] at hp
        by_cases hc2 : task.status = ns
        · rw [if_pos hc2] at hp; cases hp
        · rw [if_neg hc2] at hp
          rw [← Option.some.inj hp]
  have hTkey : ∀ (k : String) (p : String × TaskStatus),
      (match jsGet byId k with
        | none => none
        | some task =>
          if task.parentId ≠ none then none
          else if task.status = ns then none
          else some (k, ns)) = some p → p.1 = k := by
    intro k p hp
    cases hjs : jsGet byId k with
    | none => rw [hjs] at hp; cases hp
    | some task =>
      rw [hjs] at hp
      dsimp only at hp
      by_cases hc1 : task.parentId ≠ none
      · rw [if_pos hc1] at hp; cases hp
      · rw [if_neg hc1] at hp
        by_cases hc2 : task.status = ns
        · rw [if_pos hc2] at hp; cases hp
        · rw [if_neg hc2] at hp
          rw [← Option.some.inj hp]
  refine ⟨?_, ?_, ?_⟩
  · intro k hk
    rw [hf, keysOf_filterMap _ _ hFkey] at hk
    rcases List.mem_filter.1 hk with ⟨hmemu, hsome⟩
    cases hjs : jsGet byId k with
    | none => simp [hjs] at hsome
    | some task =>
      rw [hjs] at hsome
      dsimp only at hsome
      by_cases hpar : task.parentId ≠ none
      · rw [if_pos hpar] at hsome; cases hsome
      · rw [if_neg hpar] at hsome
        by_cases hst : task.status = ns
        · rw [if_pos hst] at hsome; cases hsome
        · refine ⟨task, rfl, by simpa using hpar, hst, ?_, ?_⟩
          · rw [hf]
            apply List.mem_filterMap.2
            exact ⟨k, hmemu, by simp [hjs, hpar, hst]⟩
          · rw [ht]
            apply List.mem_filterMap.2
            exact ⟨k, hmemu, by simp [hjs, hpar, hst]⟩
  · rw [hf, keysOf_filterMap _ _ hFkey]
    exact (jsSetOfList_nodup taskIds).filter _
  · rw [ht, keysOf_filterMap _ _ hTkey]
    exact (jsSetOfList_nodup taskIds).filter _

/-! ## C1: move / undo / redo round trip -/

theorem appendHistory_decomp (stack : List MoveRecord) (record : MoveRecord) :
    ∃ l, appendHistory stack record = l ++ [record] := by
  unfold appendHistory
  split
  · exact ⟨stack, rfl⟩
  · exact ⟨stack.drop 1, rfl⟩

theorem getD_last_append (l : List MoveRecord) (r d : MoveRecord) :
    (l ++ [r]).getD ((l ++ [r]).length - 1) d = r := by
  have hlen : (l ++ [r]).length - 1 = l.length := by simp
  rw [hlen, List.getD_eq_getElem?_getD, List.getElem?_append_right (Nat.le_refl _)]
  simp

theorem appendHistory_last (stack : List MoveRecord) (record : MoveRecord) :
    (appendHistory stack record).getD ((appendHistory stack record).length - 1) default
        = record
      ∧ (appendHistory stack record).length ≠ 0 := by
  obtain ⟨l, hl⟩ := appendHistory_decomp stack record
  rw [hl]
  exact ⟨getD_last_append l record default, by simp⟩

theorem move_tasks_fields (c : Nat) (n : Int) (s : BoardState) (taskIds : List String)
    (ns : TaskStatus) (rec : MoveRecord)
    (h : createMoveRecord taskIds ns s.tasks.byId n = some rec) :
    (boardReducer c n s (.move_tasks taskIds ns)).2.tasks
        = applyStatusMap s.tasks rec.toStatusById n
      ∧ (boardReducer c n s (.move_tasks taskIds ns)).2.undoStack
        = appendHistory s.undoStack rec
      ∧ (boardReducer c n s (.move_tasks taskIds ns)).2.redoStack = [] := by
  refine ⟨?_, ?_, ?_⟩ <;>
    simp only [boardReducer, moveTasks, h, enqueueSystemToast_tasks,
      enqueueSystemToast_undoStack, enqueueSystemToast_redoStack]

theorem undo_move_fields (c : Nat) (n : Int) (s : BoardState)
    (hlen : ¬ s.undoStack.length = 0) :
    (boardReducer c n s .undo_move).2.tasks
        = applyStatusMap s.tasks
            (s.undoStack.getD (s.undoStack.length - 1) default).fromStatusById n
      ∧ (boardReducer c n s .undo_move).2.redoStack
        = appendHistory s.redoStack (s.undoStack.getD (s.undoStack.length - 1) default) := by
  simp only [boardReducer]
  rw [if_neg hlen]
  exact ⟨rfl, rfl⟩

theorem redo_move_fields (c : Nat) (n : Int) (s : BoardState)
    (hlen : ¬ s.redoStack.length = 0) :
    (boardReducer c n s .redo_move).2.tasks
        = applyStatusMap s.tasks
            (s.redoStack.getD (s.redoStack.length - 1) default).toStatusById n := by
  simp only [boardReducer]
  rw [if_neg hlen]
  rfl

/-- C1: whenever a `move_tasks` intent is accepted (its `MoveRecord` is
non-null), dispatching `undo_move` right after it restores every
affected root task's status to its pre-move value, and dispatching
`redo_move` after that undo restores each status to its post-move
value. -/
theorem move_undo_redo_roundtrip (counter c' c'' : Nat) (now now' now'' : Int)
    (state : BoardState) (taskIds : List String) (nextStatus : TaskStatus)
    (rec : MoveRecord)
    (h : createMoveRecord taskIds nextStatus state.tasks.byId now = some rec) :
    ∀ k ∈ keysOf rec.fromStatusById,
      statusOf (boardReducer c' now'
          (boardReducer counter now state (.move_tasks taskIds nextStatus)).2 .undo_move).2 k
        = statusOf state k
      ∧ statusOf (boardReducer c'' now''
            (boardReducer c' now'
              (boardReducer counter now state (.move_tasks taskIds nextStatus)).2
              .undo_move).2 .redo_move).2 k
        = statusOf (boardReducer counter now state (.move_tasks taskIds nextStatus)).2 k := by
  obtain ⟨hprops, hndF, hndT⟩ := createMoveRecord_props taskIds nextStatus
    state.tasks.byId now rec h
  obtain ⟨e1tasks, e1undo, e1redo⟩ := move_tasks_fields counter now state taskIds
    nextStatus rec h
  have hulen : ¬ (boardReducer counter now state
      (.move_tasks taskIds nextStatus)).2.undoStack.length = 0 := by
    rw [e1undo]
    exact (appendHistory_last state.undoStack rec).2
  have hurec : (boardReducer counter now state
        (.move_tasks taskIds nextStatus)).2.undoStack.getD
      ((boardReducer counter now state
        (.move_tasks taskIds nextStatus)).2.undoStack.length - 1) default = rec := by
    rw [e1undo]
    exact (appendHistory_last state.undoStack rec).1
  obtain ⟨e2tasks, e2redo⟩ := undo_move_fields c' now'
    (boardReducer counter now state (.move_tasks taskIds nextStatus)).2 hulen
  rw [hurec] at e2tasks e2redo
  rw [e1redo] at e2redo
  have e2redo' : (boardReducer c' now'
      (boardReducer counter now state (.move_tasks taskIds nextStatus)).2
      .undo_move).2.redoStack = [rec] := by
    rw [e2redo]
    simp [appendHistory, MAX_HISTORY]
  have hrlen : ¬ (boardReducer c' now'
      (boardReducer counter now state (.move_tasks taskIds nextStatus)).2
      .undo_move).2.redoStack.length = 0 := by
    rw [e2redo']
    simp
  have e3tasks := redo_move_fields c'' now''
    (boardReducer c' now'
      (boardReducer counter now state (.move_tasks taskIds nextStatus)).2 .undo_move).2 hrlen
  rw [e2redo'] at e3tasks
  have hgd : (([rec] : List MoveRecord).getD (([rec] : List MoveRecord).length - 1) default)
      = rec := rfl
  rw [hgd] at e3tasks
  intro k hk
  obtain ⟨t, hjs, hpar, hne, hmemF, hmemT⟩ := hprops k hk
  have m1 : jsGet (applyStatusMap state.tasks rec.toStatusById now).byId k
      = some { t with status := nextStatus, updatedAt := now } :=
    applyStatusMap_lookup state.tasks rec.toStatusById now k nextStatus t hndT hmemT hjs
      hpar hne
  obtain ⟨t1, hjs1, hpar1, hst1⟩ : ∃ t1, jsGet (boardReducer counter now state
        (.move_tasks taskIds nextStatus)).2.tasks.byId k = some t1
      ∧ t1.parentId = none ∧ t1.status = nextStatus :=
    ⟨{ t with status := nextStatus, updatedAt := now },
      by rw [e1tasks]; exact m1, hpar, rfl⟩
  have m2 : jsGet (applyStatusMap
        (boardReducer counter now state (.move_tasks taskIds nextStatus)).2.tasks
        rec.fromStatusById now').byId k
      = some { t1 with status := t.status, updatedAt := now' } := by
    apply applyStatusMap_lookup _ rec.fromStatusById now' k t.status t1 hndF hmemF hjs1
      hpar1
    rw [hst1]
    intro hh
    exact hne hh.symm
  obtain ⟨t2, hjs2, hpar2, hst2⟩ : ∃ t2, jsGet (boardReducer c' now'
        (boardReducer counter now state (.move_tasks taskIds nextStatus)).2
        .undo_move).2.tasks.byId k = some t2
      ∧ t2.parentId = none ∧ t2.status = t.status :=
    ⟨{ t1 with status := t.status, updatedAt := now' },
      by rw [e2tasks]; exact m2, hpar1, rfl⟩
  have m3 : jsGet (applyStatusMap
        (boardReducer c' now'
          (boardReducer counter now state (.move_tasks taskIds nextStatus)).2
          .undo_move).2.tasks
        rec.toStatusById now'').byId k
      = some { t2 with status := nextStatus, updatedAt := now'' } := by
    apply applyStatusMap_lookup _ rec.toStatusById now'' k nextStatus t2 hndT hmemT hjs2
      hpar2
    rw [hst2]
    exact hne
  constructor
  · unfold statusOf
    rw [e2tasks, m2, hjs]
    rfl
  · unfold statusOf
    rw [e3tasks, m3, e1tasks, m1]
    rfl

/-- Witness for C1: moving the fixture task "A" from backlog to done,
then undoing and redoing. -/
theorem move_undo_redo_roundtrip_witness :
    createMoveRecord ["A"] TaskStatus.done wfState.tasks.byId 5
        = some ⟨[("A", .backlog)], [("A", .done)], 5⟩
      ∧ (statusOf (boardReducer 1 6
            (boardReducer 0 5 wfState (.move_tasks ["A"] .done)).2 .undo_move).2 "A"
          = statusOf wfState "A"
        ∧ statusOf (boardReducer 2 7
              (boardReducer 1 6
                (boardReducer 0 5 wfState (.move_tasks ["A"] .done)).2 .undo_move).2
              .redo_move).2 "A"
          = statusOf (boardReducer 0 5 wfState (.move_tasks ["A"] .done)).2 "A") :=
  ⟨by decide,
    move_undo_redo_roundtrip 0 1 2 5 6 7 wfState ["A"] .done
      ⟨[("A", .backlog)], [("A", .done)], 5⟩ (by decide) "A" (by decide)⟩

/-! ## C7: LRU cache -/

theorem jsGet_eq_none_iff {κ α : Type} [DecidableEq κ] (m : List (κ × α)) (k : κ) :
    jsGet m k = none ↔ ¬ k ∈ keysOf m := by
  unfold jsGet keysOf
  rw [Option.map_eq_none', List.find?_eq_none]
  constructor
  · intro hall hmem
    rcases List.mem_map.1 hmem with ⟨e, hmem, he⟩
    exact absurd (by simpa using he) (by simpa using hall e hmem)
  · intro hk e hmem
    simp only [decide_eq_true_eq]
    intro he
    exact hk (List.mem_map.2 ⟨e, hmem, he⟩)

theorem keysOf_jsDelete {κ α : Type} [DecidableEq κ] (m : List (κ × α)) (k : κ) :
    keysOf (jsDelete m k) = (keysOf m).filter (fun x => ¬ x = k) := by
  unfold jsDelete keysOf
  induction m with
  | nil => rfl
  | cons e m ih =>
    by_cases he : e.1 = k
    · rw [List.filter_cons_of_neg (by simpa using he), List.map_cons,
        List.filter_cons_of_neg (by simpa using he)]
      exact ih
    · rw [List.filter_cons_of_pos (by simpa using he), List.map_cons, List.map_cons,
        List.filter_cons_of_pos (by simpa using he), ih]

theorem jsDelete_of_not_mem {κ α : Type} [DecidableEq κ] (m : List (κ × α)) (k : κ)
    (hk : ¬ k ∈ keysOf m) : jsDelete m k = m := by
  unfold jsDelete
  apply List.filter_eq_self.2
  intro e hmem
  simp only [decide_eq_true_eq]
  intro he
  exact hk (List.mem_map.2 ⟨e, hmem, he⟩)

theorem length_jsDelete_of_mem {κ α : Type} [DecidableEq κ] (m : List (κ × α)) (k : κ)
    (hnd : (keysOf m).Nodup) (hk : k ∈ keysOf m) :
    (jsDelete m k).length + 1 = m.length := by
  induction m with
  | nil => cases hk
  | cons e m ih =>
    have hnd' : (keysOf m).Nodup := (List.nodup_cons.mp hnd).2
    by_cases he : e.1 = k
    · have hkm : ¬ k ∈ keysOf m := by
        rw [← he]
        exact (List.nodup_cons.mp hnd).1
      unfold jsDelete
      rw [List.filter_cons_of_neg (by simpa using he)]
      have : jsDelete m k = m := jsDelete_of_not_mem m k hkm
      unfold jsDelete at this
      rw [this]
      simp
    · have hkm : k ∈ keysOf m := by
        rcases List.mem_cons.1 hk with hh | hh
        · exact absurd hh.symm he
        · exact hh
      unfold jsDelete at *
      rw [List.filter_cons_of_pos (by simpa using he)]
      simp only [List.length_cons]
      rw [← ih hnd' hkm]

theorem nodup_keys_jsDelete {κ α : Type} [DecidableEq κ] (m : List (κ × α)) (k : κ)
    (hnd : (keysOf m).Nodup) : (keysOf (jsDelete m k)).Nodup := by
  rw [keysOf_jsDelete]
  exact hnd.filter _

theorem lru_set_fresh_under_cap {κ ν : Type} [DecidableEq κ] (cap : Nat)
    (m : List (κ × ν)) (k : κ) (v : ν) (hk : ¬ k ∈ keysOf m)
    (hcap : m.length + 1 ≤ cap) :
    ((⟨cap, m⟩ : LRUCache κ ν).set k v) = ⟨cap, m ++ [(k, v)]⟩ := by
  unfold LRUCache.set
  rw [(jsGet_eq_none_iff m k).2 hk]
  simp only [Option.isSome_none, Bool.false_eq_true, if_false]
  rw [if_pos (by simpa using hcap)]

theorem lru_set_fresh_full {κ ν : Type} [DecidableEq κ] (cap : Nat) (e : κ × ν)
    (m : List (κ × ν)) (k : κ) (v : ν) (hk : ¬ k ∈ keysOf (e :: m))
    (hnd : (keysOf (e :: m)).Nodup) (hcap : ¬ (e :: m).length + 1 ≤ cap) :
    ((⟨cap, e :: m⟩ : LRUCache κ ν).set k v) = ⟨cap, m ++ [(k, v)]⟩ := by
  unfold LRUCache.set
  rw [(jsGet_eq_none_iff (e :: m) k).2 hk]
  simp only [Option.isSome_none, Bool.false_eq_true, if_false]
  rw [if_neg (by simpa using hcap)]
  simp only [List.cons_append]
  congr 1
  have hek : ¬ e.1 = k := by
    intro hh
    exact hk (by rw [← hh]; exact List.mem_cons_self _ _)
  have hem : ¬ e.1 ∈ keysOf m := (List.nodup_cons.mp hnd).1
  unfold jsDelete
  rw [List.filter_cons_of_neg (by simp)]
  rw [List.filter_append]
  have h1 : m.filter (fun x => ¬ x.1 = e.1) = m := by
    apply List.filter_eq_self.2
    intro x hmem
    simp only [decide_eq_true_eq]
    intro hx
    exact hem (List.mem_map.2 ⟨x, hmem, hx⟩)
  have h2 : ([(k, v)] : List (κ × ν)).filter (fun x => ¬ x.1 = e.1) = [(k, v)] := by
    rw [List.filter_cons_of_pos (by simpa using fun hh => hek hh.symm)]
    rfl
  rw [h1, h2]

theorem lru_set_fresh_full_nil {κ ν : Type} [DecidableEq κ] (cap : Nat) (k : κ) (v : ν)
    (hcap : ¬ 1 ≤ cap) : ((⟨cap, []⟩ : LRUCache κ ν).set k v) = ⟨cap, []⟩ := by
  unfold LRUCache.set
  rw [(jsGet_eq_none_iff [] k).2 (by simp [keysOf])]
  simp only [Option.isSome_none, Bool.false_eq_true, if_false]
  rw [if_neg (by simpa using hcap)]
  simp only [List.nil_append]
  congr 1
  unfold jsDelete
  rw [List.filter_cons_of_neg (by simp)]
  rfl

theorem lru_set_present {κ ν : Type} [DecidableEq κ] (cap : Nat) (m : List (κ × ν))
    (k : κ) (v v0 : ν) (hjs : jsGet m k = some v0) (hnd : (keysOf m).Nodup)
    (hlen : m.length ≤ cap) :
    ((⟨cap, m⟩ : LRUCache κ ν).set k v) = ⟨cap, jsDelete m k ++ [(k, v)]⟩ := by
  have hmem : k ∈ keysOf m := by
    by_contra hk
    rw [(jsGet_eq_none_iff m k).2 hk] at hjs
    cases hjs
  have hdl := length_jsDelete_of_mem m k hnd hmem
  unfold LRUCache.set
  rw [hjs]
  simp only [Option.isSome_some, if_true]
  rw [if_pos (by simp; omega)]

theorem nodup_keys_append_fresh {κ ν : Type} [DecidableEq κ] (m : List (κ × ν)) (k : κ)
    (v : ν) (hnd : (keysOf m).Nodup) (hk : ¬ k ∈ keysOf m) :
    (keysOf (m ++ [(k, v)])).Nodup := by
  unfold keysOf at *
  rw [List.map_append]
  apply List.Nodup.append hnd (by simp)
  intro x hx hx'
  simp at hx'
  rw [hx'] at hx
  exact hk hx

theorem lru_get_inv {κ ν : Type} [DecidableEq κ] (c : LRUCache κ ν) (k : κ)
    (hnd : (keysOf c.map).Nodup) (hlen : c.map.length ≤ c.maxEntries) :
    (keysOf (c.get k).2.map).Nodup ∧ (c.get k).2.map.length ≤ c.maxEntries
      ∧ (c.get k).2.maxEntries = c.maxEntries := by
  unfold LRUCache.get
  cases hjs : jsGet c.map k with
  | none => exact ⟨hnd, hlen, rfl⟩
  | some v =>
    have hmem : k ∈ keysOf c.map := by
      by_contra hk
      rw [(jsGet_eq_none_iff c.map k).2 hk] at hjs
      cases hjs
    refine ⟨?_, ?_, rfl⟩
    · exact nodup_keys_append_fresh _ k v (nodup_keys_jsDelete c.map k hnd)
        (by
          rw [keysOf_jsDelete]
          intro hx
          rcases List.mem_filter.1 hx with ⟨_, habs⟩
          simp at habs)
    · simp only [List.length_append, List.length_cons, List.length_nil]
      have := length_jsDelete_of_mem c.map k hnd hmem
      omega

theorem lru_set_inv {κ ν : Type} [DecidableEq κ] (c : LRUCache κ ν) (k : κ) (v : ν)
    (hnd : (keysOf c.map).Nodup) (hlen : c.map.length ≤ c.maxEntries) :
    (keysOf (c.set k v).map).Nodup ∧ (c.set k v).map.length ≤ c.maxEntries
      ∧ (c.set k v).maxEntries = c.maxEntries := by
  have hceta : c = (⟨c.maxEntries, c.map⟩ : LRUCache κ ν) := rfl
  by_cases hk : k ∈ keysOf c.map
  · have hjs : ∃ v0, jsGet c.map k = some v0 := by
      cases hjs : jsGet c.map k with
      | none => exact absurd hk ((jsGet_eq_none_iff c.map k).1 hjs)
      | some v0 => exact ⟨v0, rfl⟩
    obtain ⟨v0, hjs⟩ := hjs
    rw [hceta, lru_set_present c.maxEntries c.map k v v0 hjs hnd hlen]
    have hdl := length_jsDelete_of_mem c.map k hnd hk
    have hknot : ¬ k ∈ keysOf (jsDelete c.map k) := by
      rw [keysOf_jsDelete]
      intro hx
      rcases List.mem_filter.1 hx with ⟨_, habs⟩
      simp at habs
    refine ⟨nodup_keys_append_fresh _ k v (nodup_keys_jsDelete c.map k hnd) hknot, ?_, rfl⟩
    simp only [List.length_append, List.length_cons, List.length_nil]
    omega
  · by_cases hcap : c.map.length + 1 ≤ c.maxEntries
    · rw [hceta, lru_set_fresh_under_cap c.maxEntries c.map k v hk hcap]
      refine ⟨nodup_keys_append_fresh _ k v hnd hk, ?_, rfl⟩
      simp only [List.length_append, List.length_cons, List.length_nil]
      omega
    · cases hm : c.map with
      | nil =>
        have hcap0 : ¬ 1 ≤ c.maxEntries := by
          rw [hm] at hcap
          simpa using hcap
        rw [hceta]
        rw [hm]
        rw [lru_set_fresh_full_nil c.maxEntries k v hcap0]
        exact ⟨by simp [keysOf], by simp, rfl⟩
      | cons e m' =>
        rw [hceta, hm]
        rw [lru_set_fresh_full c.maxEntries e m' k v (by rw [← hm]; exact hk)
          (by rw [← hm]; exact hnd) (by rw [← hm]; exact hcap)]
        have hnd' : (keysOf m').Nodup := by
          rw [hm] at hnd
          exact (List.nodup_cons.mp hnd).2
        have hkm' : ¬ k ∈ keysOf m' := by
          intro hx
          apply hk
          rw [hm]
          exact List.mem_cons_of_mem e.1 hx
        refine ⟨nodup_keys_append_fresh m' k v hnd' hkm', ?_, rfl⟩
        rw [hm] at hlen hcap
        simp only [List.length_append, List.length_cons, List.length_nil] at *
        omega

theorem lru_get_max {κ ν : Type} [DecidableEq κ] (c : LRUCache κ ν) (k : κ) :
    (c.get k).2.maxEntries = c.maxEntries := by
  unfold LRUCache.get
  cases hjs : jsGet c.map k <;> rfl

theorem runLRU_inv {κ ν : Type} [DecidableEq κ] (c : LRUCache κ ν)
    (ops : List (LRUOp κ ν)) (hnd : (keysOf c.map).Nodup)
    (hlen : c.map.length ≤ c.maxEntries) :
    (keysOf (runLRU c ops).map).Nodup
      ∧ (runLRU c ops).map.length ≤ c.maxEntries
      ∧ (runLRU c ops).maxEntries = c.maxEntries := by
  induction ops generalizing c with
  | nil => exact ⟨hnd, hlen, rfl⟩
  | cons op rest ih =>
    cases op with
    | get k =>
      obtain ⟨h1, h2, h3⟩ := lru_get_inv c k hnd hlen
      obtain ⟨g1, g2, g3⟩ := ih (c.get k).2 h1 (by rw [h3]; exact h2)
      refine ⟨g1, by rw [h3] at g2; exact g2, ?_⟩
      show (runLRU (c.get k).2 rest).maxEntries = c.maxEntries
      rw [g3, h3]
    | set k v =>
      obtain ⟨h1, h2, h3⟩ := lru_set_inv c k v hnd hlen
      obtain ⟨g1, g2, g3⟩ := ih (c.set k v) h1 (by rw [h3]; exact h2)
      refine ⟨g1, by rw [h3] at g2; exact g2, ?_⟩
      show (runLRU (c.set k v) rest).maxEntries = c.maxEntries
      rw [g3, h3]

theorem lru_fill_fresh {κ ν : Type} [DecidableEq κ] (cap : Nat)
    (entries : List (κ × ν)) (m : List (κ × ν)) (hnd : (keysOf (m ++ entries)).Nodup)
    (hlen : m.length + entries.length ≤ cap) :
    (entries.foldl (fun c e => c.set e.1 e.2) (⟨cap, m⟩ : LRUCache κ ν)).map
      = m ++ entries := by
  induction entries generalizing m with
  | nil => simp
  | cons e rest ih =>
    have hkfresh : ¬ e.1 ∈ keysOf m := by
      intro hx
      unfold keysOf at hnd hx
      rw [List.map_append] at hnd
      rcases (List.nodup_append.1 hnd) with ⟨_, _, hdisj⟩
      exact hdisj hx (by simp)
    simp only [List.foldl_cons]
    rw [lru_set_fresh_under_cap cap m e.1 e.2 hkfresh (by simp at hlen ⊢; omega)]
    have hnd' : (keysOf ((m ++ [e]) ++ rest)).Nodup := by
      have heq : (m ++ [e]) ++ rest = m ++ (e :: rest) := by simp
      rw [heq]
      exact hnd
    have hres := ih (m ++ [e]) hnd' (by simp at hlen ⊢; omega)
    rw [hres]
    simp

/-- C7: at any capacity `c ≥ 1`, (i) any operation sequence keeps the
cache at or below `c` entries (with duplicate-free keys), (ii) inserting
`c + 1` distinct keys into an empty cache evicts exactly the oldest
(least-recently-used) key, leaving precisely the other `c` entries in
order, and (iii) a hit on the about-to-be-evicted key promotes it so it
survives the next eviction that would otherwise have removed it. -/
theorem lru_cache_spec {κ ν : Type} [DecidableEq κ] :
    (∀ (c : LRUCache κ ν) (ops : List (LRUOp κ ν)),
      (keysOf c.map).Nodup → c.map.length ≤ c.maxEntries →
      (keysOf (runLRU c ops).map).Nodup ∧ (runLRU c ops).map.length ≤ c.maxEntries)
    ∧ (∀ (cap : Nat) (init : List (κ × ν)) (e : κ × ν),
      (keysOf (init ++ [e])).Nodup → init.length = cap → 1 ≤ cap →
      ((init ++ [e]).foldl (fun c p => c.set p.1 p.2) (⟨cap, []⟩ : LRUCache κ ν)).map
        = init.tail ++ [e])
    ∧ (∀ (cap : Nat) (k k' : κ) (v v' : ν) (rest : List (κ × ν)),
      (keysOf ((k, v) :: rest)).Nodup → ¬ k' ∈ keysOf ((k, v) :: rest) →
      ((k, v) :: rest).length = cap → 2 ≤ cap →
      k ∈ keysOf (((⟨cap, (k, v) :: rest⟩ : LRUCache κ ν).get k).2.set k' v').map
        ∧ ¬ k ∈ keysOf ((⟨cap, (k, v) :: rest⟩ : LRUCache κ ν).set k' v').map) := by
  refine ⟨?_, ?_, ?_⟩
  · intro c ops hnd hlen
    obtain ⟨h1, h2, _⟩ := runLRU_inv c ops hnd hlen
    exact ⟨h1, h2⟩
  · intro cap init e hnd hlen hcap
    have hndinit : (keysOf init).Nodup := by
      unfold keysOf at hnd ⊢
      rw [List.map_append] at hnd
      exact (List.nodup_append.1 hnd).1
    have hfresh : ¬ e.1 ∈ keysOf init := by
      unfold keysOf at hnd ⊢
      rw [List.map_append] at hnd
      rcases List.nodup_append.1 hnd with ⟨_, _, hdisj⟩
      intro hx
      exact hdisj hx (by simp)
    have hmax : ∀ (l : List (κ × ν)) (c0 : LRUCache κ ν),
        (List.foldl (fun c p => c.set p.1 p.2) c0 l).maxEntries = c0.maxEntries := by
      intro l
      induction l with
      | nil => intro c0; rfl
      | cons x xs ih =>
        intro c0
        rw [List.foldl_cons, ih]
        unfold LRUCache.set
        dsimp only
        split
        · split
          · rfl
          · split <;> rfl
        · split
          · rfl
          · split <;> rfl
    have hmap : (List.foldl (fun c p => c.set p.1 p.2)
        (⟨cap, []⟩ : LRUCache κ ν) init).map = init := by
      simpa using lru_fill_fresh cap init [] (by simpa [keysOf] using hndinit)
        (by simp; omega)
    have hCeta : (List.foldl (fun c p => c.set p.1 p.2) (⟨cap, []⟩ : LRUCache κ ν) init)
        = (⟨cap, init⟩ : LRUCache κ ν) := by
      have h2 := hmax init (⟨cap, []⟩ : LRUCache κ ν)
      cases hfold : (List.foldl (fun c p => c.set p.1 p.2)
          (⟨cap, []⟩ : LRUCache κ ν) init) with
      | mk me mp =>
        rw [hfold] at hmap h2
        simp at hmap h2
        rw [hmap, h2]
    rw [List.foldl_append, hCeta]
    cases hinit : init with
    | nil =>
      exfalso
      rw [hinit] at hlen
      simp at hlen
      omega
    | cons i0 irest =>
      simp only [List.foldl_cons, List.foldl_nil]
      rw [lru_set_fresh_full cap i0 irest e.1 e.2 (by rw [← hinit]; exact hfresh)
        (by rw [← hinit]; exact hndinit)
        (by rw [← hinit]; simp; omega)]
      simp
  · intro cap k k' v v' rest hnd hk' hlen hcap
    have hget : (⟨cap, (k, v) :: rest⟩ : LRUCache κ ν).get k
        = (some v, ⟨cap, rest ++ [(k, v)]⟩) := by
      unfold LRUCache.get
      have hjs : jsGet ((k, v) :: rest) k = some v := by
        rw [jsGet_cons]
        simp
      rw [hjs]
      have hkrest : ¬ k ∈ keysOf rest := (List.nodup_cons.mp hnd).1
      have hdel : jsDelete ((k, v) :: rest) k = rest := by
        unfold jsDelete
        rw [List.filter_cons_of_neg (by simp)]
        have hjd := jsDelete_of_not_mem rest k hkrest
        unfold jsDelete at hjd
        rw [hjd]
      rw [hdel]
    have hrestlen : 1 ≤ rest.length := by
      simp at hlen
      omega
    have hndrest : (keysOf rest).Nodup := (List.nodup_cons.mp hnd).2
    have hkrest : ¬ k ∈ keysOf rest := (List.nodup_cons.mp hnd).1
    have hk'rest : ¬ k' ∈ keysOf rest := fun hx =>
      hk' (List.mem_cons_of_mem k hx)
    have hk'k : ¬ k' = k := by
      intro hh
      apply hk'
      rw [hh]
      unfold keysOf
      simp
    constructor
    · rw [hget]
      cases hr : rest with
      | nil =>
        rw [hr] at hrestlen
        simp at hrestlen
      | cons r0 rs =>
        have hndapp : (keysOf ((r0 :: rs) ++ [(k, v)])).Nodup := by
          rw [← hr]
          exact nodup_keys_append_fresh rest k v hndrest hkrest
        have hk'app : ¬ k' ∈ keysOf ((r0 :: rs) ++ [(k, v)]) := by
          rw [← hr]
          unfold keysOf
          rw [List.map_append]
          intro hx
          rcases List.mem_append.1 hx with hx | hx
          · exact hk'rest hx
          · simp at hx
            exact hk'k hx
        rw [show ((r0 :: rs) ++ [(k, v)] : List (κ × ν)) = r0 :: (rs ++ [(k, v)])
          from by simp]
        rw [show ((r0 :: rs) ++ [(k, v)] : List (κ × ν)) = r0 :: (rs ++ [(k, v)])
          from by simp] at hndapp hk'app
        rw [lru_set_fresh_full cap r0 (rs ++ [(k, v)]) k' v' hk'app hndapp
          (by
            have h1 : rest.length + 1 = cap := by simpa using hlen
            have h2 : rs.length + 1 = rest.length := by rw [hr]; simp
            simp
            omega)]
        unfold keysOf
        rw [List.map_append, List.map_append]
        apply List.mem_append.2
        left
        apply List.mem_append.2
        right
        simp
    · rw [lru_set_fresh_full cap (k, v) rest k' v' hk' hnd (by simp at hlen ⊢; omega)]
      unfold keysOf
      rw [List.map_append]
      intro hx
      rcases List.mem_append.1 hx with hx | hx
      · exact hkrest hx
      · simp at hx
        exact hk'k hx.symm

/-- Witness for C7 at capacity 2 with concrete string keys. -/
theorem lru_cache_spec_witness :
    (keysOf ((⟨2, []⟩ : LRUCache String Nat).map)).Nodup
      ∧ (runLRU (⟨2, []⟩ : LRUCache String Nat)
          [.set "a" 1, .set "b" 2, .get "a", .set "c" 3]).map.length ≤ 2
      ∧ ((([("a", 1), ("b", 2)] ++ [("c", 3)]) : List (String × Nat)).foldl
          (fun (c : LRUCache String Nat) (p : String × Nat) => c.set p.1 p.2)
          (⟨2, []⟩ : LRUCache String Nat)).map = [("b", 2), ("c", 3)]
      ∧ "a" ∈ keysOf (((⟨2, [("a", 1), ("b", 2)]⟩ : LRUCache String Nat).get "a").2.set
          "c" 3).map
      ∧ ¬ "a" ∈ keysOf ((⟨2, [("a", 1), ("b", 2)]⟩ : LRUCache String Nat).set "c" 3).map :=
  ⟨by decide,
    ((@lru_cache_spec String Nat _).1 (⟨2, []⟩ : LRUCache String Nat)
      [.set "a" 1, .set "b" 2, .get "a", .set "c" 3] (by decide) (by decide)).2,
    (@lru_cache_spec String Nat _).2.1 2 [("a", 1), ("b", 2)] ("c", 3) (by decide)
      (by decide) (by decide),
    ((@lru_cache_spec String Nat _).2.2 2 "a" "c" 1 3 [("b", 2)] (by decide) (by decide)
      (by decide) (by decide)).1,
    ((@lru_cache_spec String Nat _).2.2 2 "a" "c" 1 3 [("b", 2)] (by decide) (by decide)
      (by decide) (by decide)).2⟩

/-! ## C9: trie insertion and prefix suggestion -/

/-- C9: after inserting "Refactor Billing workflow 3" under id T1 into an
empty trie, `suggest "bill" 5` returns a list containing T1 (the word
"billing" indexes the prefix path "bill"). -/
theorem trie_suggest_contains :
    "T1" ∈ trieSuggest (trieInsert createTrieNode "Refactor Billing workflow 3" "T1")
      "bill" 5 := by
  have h1 : trieSuggest (trieInsert createTrieNode "Refactor Billing workflow 3" "T1")
      "bill" 5
      = trieCollect 5
        [TrieNode.mk [('i', TrieNode.mk [('n', TrieNode.mk [('g', TrieNode.mk [] ["T1"])]
          ["T1"])] ["T1"])] ["T1"]] [] [] := rfl
  have h2 : trieCollect 5
      [TrieNode.mk [('i', TrieNode.mk [('n', TrieNode.mk [('g', TrieNode.mk [] ["T1"])]
        ["T1"])] ["T1"])] ["T1"]] [] [] = ["T1"] := by
    rw [trieCollect]
    show trieCollect 5
      [TrieNode.mk [('n', TrieNode.mk [('g', TrieNode.mk [] ["T1"])] ["T1"])] ["T1"]]
      ["T1"] ["T1"] = ["T1"]
    rw [trieCollect]
    show trieCollect 5 [TrieNode.mk [('g', TrieNode.mk [] ["T1"])] ["T1"]]
      ["T1"] ["T1"] = ["T1"]
    rw [trieCollect]
    show trieCollect 5 [TrieNode.mk [] ["T1"]] ["T1"] ["T1"] = ["T1"]
    rw [trieCollect]
    show trieCollect 5 [] ["T1"] ["T1"] = ["T1"]
    rw [trieCollect]
  rw [h1, h2]
  exact List.mem_singleton.mpr rfl

/-! ## C8: cursor pagination window -/

/-- C8: `getCursorWindow` clamps the page size to at least 1, computes
`totalPages = max 1 (ceil (totalItems / pageSize))`, clamps the cursor to
`[0, (totalPages - 1) * pageSize]`, and derives
`currentPage = clampedCursor / pageSize + 1`; on
`(47, 100, 10, 5)` it returns cursor 40, currentPage 5, totalPages 5,
nextCursor null, prevCursor 30. -/
theorem cursor_window_spec :
    (∀ totalItems requestedCursor pageSize windowSize : Nat,
      (getCursorWindow totalItems requestedCursor pageSize windowSize).totalPages
          = max 1 ((totalItems + max pageSize 1 - 1) / max pageSize 1)
        ∧ (getCursorWindow totalItems requestedCursor pageSize windowSize).cursor
          = min requestedCursor
            (((getCursorWindow totalItems requestedCursor pageSize windowSize).totalPages - 1)
              * max pageSize 1)
        ∧ (getCursorWindow totalItems requestedCursor pageSize windowSize).currentPage
          = (getCursorWindow totalItems requestedCursor pageSize windowSize).cursor
              / max pageSize 1 + 1)
    ∧ (getCursorWindow 47 100 10 5).cursor = 40
    ∧ (getCursorWindow 47 100 10 5).currentPage = 5
    ∧ (getCursorWindow 47 100 10 5).totalPages = 5
    ∧ (getCursorWindow 47 100 10 5).nextCursor = none
    ∧ (getCursorWindow 47 100 10 5).prevCursor = some 30 :=
  ⟨fun _ _ _ _ => ⟨rfl, rfl, rfl⟩, rfl, rfl, rfl, rfl, rfl⟩

/-! ## Heap-order correctness of the priority queue (C4) -/

theorem listSwap_length {α : Type} [Inhabited α] (h : List α) (i j : Nat) :
    (listSwap h i j).length = h.length := by
  simp [listSwap]

theorem getD_listSwap {α : Type} [Inhabited α] (h : List α) (i j k : Nat)
    (hi : i < h.length) (hj : j < h.length) :
    (listSwap h i j).getD k default =
      if k = j then h.getD i default
      else if k = i then h.getD j default
      else h.getD k default := by
  simp only [listSwap, List.getD_eq_getElem?_getD, List.getElem?_set, List.length_set]
  by_cases hkj : k = j
  · rw [if_pos hkj, if_pos (show j = k by omega), if_pos hj, Option.getD_some]
  · rw [if_neg hkj, if_neg (show ¬ j = k by omega)]
    by_cases hki : k = i
    · rw [if_pos hki, if_pos (show i = k by omega), if_pos hi, Option.getD_some]
    · rw [if_neg hki, if_neg (show ¬ i = k by omega)]

theorem toastComparator_self_nonpos (x : ToastMessage) : toastComparator x x ≤ 0 := by
  simp [toastComparator]

theorem toastComparator_total (x y : ToastMessage) (h : ¬ toastComparator x y ≤ 0) :
    toastComparator y x ≤ 0 := by
  unfold toastComparator at *
  split_ifs at * <;> omega

theorem toastComparator_trans (x y z : ToastMessage) (h1 : toastComparator x y ≤ 0)
    (h2 : toastComparator y z ≤ 0) : toastComparator x z ≤ 0 := by
  unfold toastComparator at *
  split_ifs at * <;> omega

/-- `siftUp` restores the heap property when every parent link except the
one above position `i` holds, and `i`'s prospective children already fit
under `i`'s parent. -/
theorem siftUp_heapOrdered {α : Type} [Inhabited α] (cmp : α → α → Int)
    (htotal : ∀ x y, ¬ cmp x y ≤ 0 → cmp y x ≤ 0)
    (htrans : ∀ x y z, cmp x y ≤ 0 → cmp y z ≤ 0 → cmp x z ≤ 0)
    (i : Nat) :
    ∀ h : List α, i < h.length →
    (∀ j, 0 < j → j < h.length → j ≠ i →
      cmp (h.getD j default) (h.getD ((j - 1) / 2) default) ≤ 0) →
    (0 < i → ∀ j, j < h.length → (j - 1) / 2 = i →
      cmp (h.getD j default) (h.getD ((i - 1) / 2) default) ≤ 0) →
    heapOrdered cmp (siftUp cmp h i) := by
  induction i using Nat.strong_induction_on with
  | _ i ih =>
  intro h hi hvalid hgrand
  rw [siftUp]
  dsimp only
  split
  · rename_i hi0
    intro j hj0 hjlen
    exact hvalid j hj0 hjlen (by omega)
  · rename_i hi0
    split
    · rename_i hcmp
      intro j hj0 hjlen
      by_cases hji : j = i
      · subst hji
        exact hcmp
      · exact hvalid j hj0 hjlen hji
    · rename_i hcmp
      have hp_lt : (i - 1) / 2 < i := by omega
      have hp_len : (i - 1) / 2 < h.length := lt_trans hp_lt hi
      have hlen : (listSwap h i ((i - 1) / 2)).length = h.length :=
        listSwap_length h i ((i - 1) / 2)
      have gd : ∀ k, (listSwap h i ((i - 1) / 2)).getD k default =
          if k = (i - 1) / 2 then h.getD i default
          else if k = i then h.getD ((i - 1) / 2) default
          else h.getD k default :=
        fun k => getD_listSwap h i ((i - 1) / 2) k hi hp_len
      apply ih ((i - 1) / 2) hp_lt (listSwap h i ((i - 1) / 2))
      · rw [hlen]
        exact hp_len
      · intro j hj0 hjlen hjp
        rw [hlen] at hjlen
        by_cases hji : j = i
        · rw [hji]
          rw [gd i, gd ((i - 1) / 2)]
          rw [if_neg (show ¬ i = (i - 1) / 2 by omega), if_pos rfl, if_pos rfl]
          exact htotal _ _ hcmp
        · by_cases hpji : (j - 1) / 2 = i
          · rw [gd j, gd ((j - 1) / 2)]
            rw [if_neg hjp, if_neg hji, if_neg (show ¬ (j - 1) / 2 = (i - 1) / 2 by omega),
              if_pos hpji]
            exact hgrand (by omega) j hjlen hpji
          · by_cases hpjp : (j - 1) / 2 = (i - 1) / 2
            · rw [gd j, gd ((j - 1) / 2)]
              rw [if_neg hjp, if_neg hji, if_pos hpjp]
              have h1 : cmp (h.getD j default) (h.getD ((i - 1) / 2) default) ≤ 0 := by
                have := hvalid j hj0 hjlen hji
                rwa [hpjp] at this
              exact htrans _ _ _ h1 (htotal _ _ hcmp)
            · rw [gd j, gd ((j - 1) / 2)]
              rw [if_neg hjp, if_neg hji, if_neg hpjp, if_neg hpji]
              exact hvalid j hj0 hjlen hji
      · intro hp0 j hjlen hpj
        rw [hlen] at hjlen
        rw [gd ((((i - 1) / 2) - 1) / 2)]
        rw [if_neg (show ¬ (((i - 1) / 2) - 1) / 2 = (i - 1) / 2 by omega),
          if_neg (show ¬ (((i - 1) / 2) - 1) / 2 = i by omega)]
        by_cases hji : j = i
        · rw [hji]
          rw [gd i]
          rw [if_neg (show ¬ i = (i - 1) / 2 by omega), if_pos rfl]
          exact hvalid ((i - 1) / 2) hp0 hp_len (by omega)
        · rw [gd j]
          rw [if_neg (show ¬ j = (i - 1) / 2 by omega), if_neg hji]
          have h1 : cmp (h.getD j default) (h.getD ((i - 1) / 2) default) ≤ 0 := by
            have := hvalid j (by omega) hjlen hji
            rwa [hpj] at this
          have h2 : cmp (h.getD ((i - 1) / 2) default)
              (h.getD ((((i - 1) / 2) - 1) / 2) default) ≤ 0 :=
            hvalid ((i - 1) / 2) hp0 hp_len (by omega)
          exact htrans _ _ _ h1 h2

/-- What `siftDownLargest` selects: either `i` itself, in which case each
in-bounds child of `i` compares `≤ 0` against `i`; or a strictly larger
in-bounds child index that beats `i`, with the sibling (if any) comparing
`≤ 0` against it. -/
theorem siftDownLargest_spec {α : Type} [Inhabited α] (cmp : α → α → Int)
    (htotal : ∀ x y, ¬ cmp x y ≤ 0 → cmp y x ≤ 0)
    (htrans : ∀ x y z, cmp x y ≤ 0 → cmp y z ≤ 0 → cmp x z ≤ 0)
    (h : List α) (i : Nat) :
    (siftDownLargest cmp h i = i ∧
      ∀ j, j < h.length → 0 < j → (j - 1) / 2 = i →
        cmp (h.getD j default) (h.getD i default) ≤ 0)
    ∨ (i < siftDownLargest cmp h i ∧ siftDownLargest cmp h i < h.length
        ∧ (siftDownLargest cmp h i - 1) / 2 = i
        ∧ 0 < cmp (h.getD (siftDownLargest cmp h i) default) (h.getD i default)
        ∧ ∀ j, j < h.length → 0 < j → (j - 1) / 2 = i → j ≠ siftDownLargest cmp h i →
            cmp (h.getD j default) (h.getD (siftDownLargest cmp h i) default) ≤ 0) := by
  have hstrict : ∀ x y z, 0 < cmp x y → 0 < cmp y z → 0 < cmp x z := by
    intro x y z hxy hyz
    by_contra hle
    have h1 : cmp y x ≤ 0 := htotal x y (by omega)
    have h2 : cmp y z ≤ 0 := htrans y x z h1 (by omega)
    omega
  simp only [siftDownLargest]
  by_cases hc1 : 2 * i + 1 < h.length ∧ 0 < cmp (h.getD (2 * i + 1) default) (h.getD i default)
  · simp only [if_pos hc1]
    by_cases hc2 : 2 * i + 1 + 1 < h.length
        ∧ 0 < cmp (h.getD (2 * i + 1 + 1) default) (h.getD (2 * i + 1) default)
    · simp only [if_pos hc2]
      right
      refine ⟨by omega, hc2.1, by omega, hstrict _ _ _ hc2.2 hc1.2, ?_⟩
      intro j hjlen hj0 hpar hne
      have hj : j = 2 * i + 1 := by omega
      subst hj
      have := hc2.2
      exact htotal _ _ (by omega)
    · simp only [if_neg hc2]
      push_neg at hc2
      right
      refine ⟨by omega, hc1.1, by omega, hc1.2, ?_⟩
      intro j hjlen hj0 hpar hne
      have hj : j = 2 * i + 1 + 1 := by omega
      subst hj
      have := hc2 hjlen
      omega
  · simp only [if_neg hc1]
    push_neg at hc1
    by_cases hc2 : 2 * i + 1 + 1 < h.length
        ∧ 0 < cmp (h.getD (2 * i + 1 + 1) default) (h.getD i default)
    · simp only [if_pos hc2]
      right
      refine ⟨by omega, hc2.1, by omega, hc2.2, ?_⟩
      intro j hjlen hj0 hpar hne
      have hj : j = 2 * i + 1 := by omega
      subst hj
      have h1 : cmp (h.getD (2 * i + 1) default) (h.getD i default) ≤ 0 := by
        have := hc1 hjlen
        omega
      have h2 : cmp (h.getD i default) (h.getD (2 * i + 1 + 1) default) ≤ 0 := by
        have := hc2.2
        exact htotal _ _ (by omega)
      exact htrans _ _ _ h1 h2
    · simp only [if_neg hc2]
      push_neg at hc2
      left
      refine ⟨by simp, ?_⟩
      intro j hjlen hj0 hpar
      have hj : j = 2 * i + 1 ∨ j = 2 * i + 1 + 1 := by omega
      rcases hj with hj | hj <;> subst hj
      · have := hc1 hjlen
        omega
      · have := hc2 hjlen
        omega

/-- `siftDown` restores the heap property when every parent link except
those below position `i` holds, and `i`'s children already fit under
`i`'s parent. -/
theorem siftDown_heapOrdered {α : Type} [Inhabited α] (cmp : α → α → Int)
    (htotal : ∀ x y, ¬ cmp x y ≤ 0 → cmp y x ≤ 0)
    (htrans : ∀ x y z, cmp x y ≤ 0 → cmp y z ≤ 0 → cmp x z ≤ 0)
    (h : List α) (i : Nat)
    (hvalid : ∀ j, 0 < j → j < h.length → (j - 1) / 2 ≠ i →
      cmp (h.getD j default) (h.getD ((j - 1) / 2) default) ≤ 0)
    (hup : 0 < i → ∀ j, 0 < j → j < h.length → (j - 1) / 2 = i →
      cmp (h.getD j default) (h.getD ((i - 1) / 2) default) ≤ 0) :
    heapOrdered cmp (siftDown cmp h i) := by
  have main : ∀ (n : Nat) (h : List α) (i : Nat), h.length - i ≤ n →
      (∀ j, 0 < j → j < h.length → (j - 1) / 2 ≠ i →
        cmp (h.getD j default) (h.getD ((j - 1) / 2) default) ≤ 0) →
      (0 < i → ∀ j, 0 < j → j < h.length → (j - 1) / 2 = i →
        cmp (h.getD j default) (h.getD ((i - 1) / 2) default) ≤ 0) →
      heapOrdered cmp (siftDown cmp h i) := by
    intro n
    induction n with
    | zero =>
      intro h i hle hvalid hup
      rw [siftDown]
      rw [if_neg (show ¬ i < h.length by omega)]
      intro j hj0 hjlen
      exact hvalid j hj0 hjlen (by omega)
    | succ n ih =>
      intro h i hle hvalid hup
      rw [siftDown]
      dsimp only
      split
      · rename_i hilt
        split
        · rename_i heq
          rcases siftDownLargest_spec cmp htotal htrans h i with ⟨_, hchild⟩ | ⟨hgt, _⟩
          · intro j hj0 hjlen
            by_cases hpar : (j - 1) / 2 = i
            · rw [hpar]
              exact hchild j hjlen hj0 hpar
            · exact hvalid j hj0 hjlen hpar
          · exact absurd heq (by omega)
        · rename_i hne
          rcases siftDownLargest_spec cmp htotal htrans h i with ⟨heq, _⟩
            | ⟨hgt, hLlen, hLpar, hA, hB⟩
          · exact absurd heq hne
          · have hlen : (listSwap h i (siftDownLargest cmp h i)).length = h.length :=
              listSwap_length h i (siftDownLargest cmp h i)
            have gd : ∀ k, (listSwap h i (siftDownLargest cmp h i)).getD k default =
                if k = siftDownLargest cmp h i then h.getD i default
                else if k = i then h.getD (siftDownLargest cmp h i) default
                else h.getD k default :=
              fun k => getD_listSwap h i (siftDownLargest cmp h i) k (by omega) hLlen
            apply ih (listSwap h i (siftDownLargest cmp h i)) (siftDownLargest cmp h i)
            · rw [hlen]
              omega
            · intro j hj0 hjlen hjparL
              rw [hlen] at hjlen
              by_cases hjL : j = siftDownLargest cmp h i
              · rw [hjL, gd (siftDownLargest cmp h i), gd ((siftDownLargest cmp h i - 1) / 2)]
                rw [if_pos rfl, hLpar, if_neg (show ¬ i = siftDownLargest cmp h i by omega),
                  if_pos rfl]
                exact htotal _ _ (by omega)
              · by_cases hpji : (j - 1) / 2 = i
                · rw [gd j, gd ((j - 1) / 2)]
                  rw [if_neg hjL, if_neg (show ¬ j = i by omega), hpji,
                    if_neg (show ¬ i = siftDownLargest cmp h i by omega), if_pos rfl]
                  exact hB j hjlen hj0 hpji hjL
                · by_cases hji : j = i
                  · subst hji
                    rw [gd j, gd ((j - 1) / 2)]
                    rw [if_neg hjL, if_pos rfl, if_neg (show ¬ (j - 1) / 2
                      = siftDownLargest cmp h j by omega), if_neg hpji]
                    exact hup hj0 (siftDownLargest cmp h j) (by omega) hLlen hLpar
                  · rw [gd j, gd ((j - 1) / 2)]
                    rw [if_neg hjL, if_neg hji, if_neg hjparL, if_neg hpji]
                    exact hvalid j hj0 hjlen hpji
            · intro hL0 j hj0 hjlen hparL
              rw [hlen] at hjlen
              rw [gd j, gd ((siftDownLargest cmp h i - 1) / 2)]
              rw [if_neg (show ¬ j = siftDownLargest cmp h i by omega),
                if_neg (show ¬ j = i by omega), hLpar,
                if_neg (show ¬ i = siftDownLargest cmp h i by omega), if_pos rfl]
              have h1 : cmp (h.getD j default)
                  (h.getD (siftDownLargest cmp h i) default) ≤ 0 := by
                have := hvalid j hj0 hjlen (by omega)
                rwa [hparL] at this
              exact h1
      · intro j hj0 hjlen
        exact hvalid j hj0 hjlen (by omega)
  exact main (h.length - i) h i (Nat.le_refl _) hvalid hup

theorem pqPush_heapOrdered {α : Type} [Inhabited α] (cmp : α → α → Int)
    (htotal : ∀ x y, ¬ cmp x y ≤ 0 → cmp y x ≤ 0)
    (htrans : ∀ x y z, cmp x y ≤ 0 → cmp y z ≤ 0 → cmp x z ≤ 0)
    (h : List α) (v : α) (hh : heapOrdered cmp h) :
    heapOrdered cmp (pqPush cmp h v) := by
  unfold pqPush
  apply siftUp_heapOrdered cmp htotal htrans h.length (h ++ [v])
  · simp only [List.length_append, List.length_singleton]
    omega
  · intro j hj0 hjlen hjne
    simp only [List.length_append, List.length_singleton] at hjlen
    have hjlt : j < h.length := by omega
    have hplt : (j - 1) / 2 < h.length := by omega
    rw [List.getD_append h [v] default j hjlt, List.getD_append h [v] default _ hplt]
    exact hh j hj0 hjlt
  · intro h0 j hjlen hpar
    exfalso
    simp only [List.length_append, List.length_singleton] at hjlen
    omega

theorem getD_dropLast_set {α : Type} [Inhabited α] (l : List α) (a : α) (k : Nat)
    (hk0 : 0 < k) (hk : k < l.length - 1) :
    ((l.dropLast).set 0 a).getD k default = l.getD k default := by
  rw [List.getD_eq_getElem?_getD, List.getD_eq_getElem?_getD, List.getElem?_set]
  rw [if_neg (show ¬ 0 = k by omega)]
  rw [List.dropLast_eq_take, List.getElem?_take, if_pos hk]

theorem pqPop_heapOrdered {α : Type} [Inhabited α] (cmp : α → α → Int)
    (htotal : ∀ x y, ¬ cmp x y ≤ 0 → cmp y x ≤ 0)
    (htrans : ∀ x y z, cmp x y ≤ 0 → cmp y z ≤ 0 → cmp x z ≤ 0)
    (h : List α) (hh : heapOrdered cmp h) :
    heapOrdered cmp (pqPop cmp h).2 := by
  rcases h with _ | ⟨x, _ | ⟨y, rest⟩⟩
  · intro j hj0 hjlen
    rw [show (pqPop cmp ([] : List α)).2 = [] from rfl] at hjlen
    simp at hjlen
  · intro j hj0 hjlen
    rw [show (pqPop cmp [x]).2 = [] from rfl] at hjlen
    simp at hjlen
  · show heapOrdered cmp (siftDown cmp
      (((x :: y :: rest).dropLast).set 0
        ((x :: y :: rest).getD ((x :: y :: rest).length - 1) default)) 0)
    apply siftDown_heapOrdered cmp htotal htrans
    · intro j hj0 hjlen hjpar
      rw [List.length_set, List.length_dropLast] at hjlen
      rw [getD_dropLast_set _ _ _ hj0 hjlen,
        getD_dropLast_set _ _ _ (by omega) (by omega)]
      exact hh j hj0 (by omega)
    · intro h00
      exact absurd h00 (by omega)

theorem heapOrdered_le_root {α : Type} [Inhabited α] (cmp : α → α → Int)
    (hrefl : ∀ x, cmp x x ≤ 0)
    (htrans : ∀ x y z, cmp x y ≤ 0 → cmp y z ≤ 0 → cmp x z ≤ 0)
    (h : List α) (hh : heapOrdered cmp h) :
    ∀ i, i < h.length → cmp (h.getD i default) (h.getD 0 default) ≤ 0 := by
  intro i
  induction i using Nat.strong_induction_on with
  | _ i ih =>
  intro hilen
  rcases Nat.eq_zero_or_pos i with h0 | h0
  · subst h0
    exact hrefl _
  · exact htrans _ _ _ (hh i h0 hilen) (ih ((i - 1) / 2) (by omega) (by omega))

theorem heapOrdered_mem_le_root {α : Type} [Inhabited α] (cmp : α → α → Int)
    (hrefl : ∀ x, cmp x x ≤ 0)
    (htrans : ∀ x y z, cmp x y ≤ 0 → cmp y z ≤ 0 → cmp x z ≤ 0)
    (h : List α) (hh : heapOrdered cmp h) :
    ∀ y ∈ h, cmp y (h.getD 0 default) ≤ 0 := by
  intro y hy
  rcases List.mem_iff_getElem.1 hy with ⟨n, hn, hval⟩
  have hle := heapOrdered_le_root cmp hrefl htrans h hh n hn
  rw [List.getD_eq_getElem?_getD, List.getElem?_eq_getElem hn, Option.getD_some, hval] at hle
  exact hle

theorem pqPop_fst {α : Type} [Inhabited α] (cmp : α → α → Int) (h : List α)
    (hne : h ≠ []) : (pqPop cmp h).1 = some (h.getD 0 default) := by
  rcases h with _ | ⟨x, _ | ⟨y, rest⟩⟩
  · exact absurd rfl hne
  · rfl
  · rfl

theorem pqPop_snd_subset {α : Type} [DecidableEq α] [Inhabited α] (cmp : α → α → Int)
    (h : List α) : ∀ b ∈ (pqPop cmp h).2, b ∈ h := by
  intro b hb
  exact (pqPop_perm cmp h).mem_iff.1 (List.mem_append.2 (Or.inr hb))

/-- Running any push/pop trace from a heap-ordered heap keeps the heap
ordered, and the final size plus the number of successful pops equals the
starting size plus the number of pushes. -/
theorem runPQ_heapOrdered {α : Type} [DecidableEq α] [Inhabited α] (cmp : α → α → Int)
    (htotal : ∀ x y, ¬ cmp x y ≤ 0 → cmp y x ≤ 0)
    (htrans : ∀ x y z, cmp x y ≤ 0 → cmp y z ≤ 0 → cmp x z ≤ 0) :
    ∀ (ops : List (PQOp α)) (h : List α), heapOrdered cmp h →
      heapOrdered cmp (runPQ cmp h ops).1
      ∧ (runPQ cmp h ops).1.length + (runPQ cmp h ops).2.length
          = h.length + pushCount ops := by
  intro ops
  induction ops with
  | nil =>
    intro h hh
    refine ⟨hh, ?_⟩
    simp [runPQ, pushCount]
  | cons op rest ih =>
    intro h hh
    cases op with
    | push v =>
      have hstep := ih (pqPush cmp h v) (pqPush_heapOrdered cmp htotal htrans h v hh)
      have hlen : (pqPush cmp h v).length = h.length + 1 := by
        have hp := (pqPush_perm cmp h v).length_eq
        simpa using hp
      simp only [runPQ, pushCount]
      refine ⟨hstep.1, ?_⟩
      rw [hstep.2, hlen]
      omega
    | pop =>
      have hstep := ih (pqPop cmp h).2 (pqPop_heapOrdered cmp htotal htrans h hh)
      have hperm := (pqPop_perm cmp h).length_eq
      have h2 := hstep.2
      rcases hfst : (pqPop cmp h).1 with _ | v
      · rw [hfst] at hperm
        simp only [Option.toList_none, List.nil_append] at hperm
        simp only [runPQ, pushCount]
        rw [hfst]
        dsimp only
        refine ⟨hstep.1, ?_⟩
        omega
      · rw [hfst] at hperm
        simp only [Option.toList_some, List.singleton_append, List.length_cons] at hperm
        simp only [runPQ, pushCount]
        rw [hfst]
        dsimp only
        refine ⟨hstep.1, ?_⟩
        simp only [List.length_cons]
        omega

theorem siftDown_single_toast : siftDown toastComparator [toastNewer] 0 = [toastNewer] := by
  rw [siftDown]
  norm_num [siftDownLargest]

theorem pqPush_toastOlder : pqPush toastComparator [] toastOlder = [toastOlder] := by
  unfold pqPush
  rw [siftUp]
  simp

theorem pqPush_toastNewer :
    pqPush toastComparator [toastOlder] toastNewer = [toastOlder, toastNewer] := by
  unfold pqPush
  rw [siftUp]
  norm_num [toastComparator, toastOlder, toastNewer]

theorem pqPop_two_toasts :
    pqPop toastComparator [toastOlder, toastNewer] = (some toastOlder, [toastNewer]) := by
  show (some toastOlder, siftDown toastComparator [toastNewer] 0) = _
  rw [siftDown_single_toast]

theorem pqPop_one_toast : pqPop toastComparator [toastNewer] = (some toastNewer, []) := rfl

theorem runPQ_toast_pushes :
    runPQ toastComparator [] [PQOp.push toastOlder, PQOp.push toastNewer]
      = ([toastOlder, toastNewer], []) := by
  rw [runPQ, pqPush_toastOlder, runPQ, pqPush_toastNewer, runPQ]

theorem runPQ_toast_trace :
    runPQ toastComparator []
        [PQOp.push toastOlder, PQOp.push toastNewer, PQOp.pop, PQOp.pop]
      = ([], [toastOlder, toastNewer]) := by
  rw [runPQ, pqPush_toastOlder, runPQ, pqPush_toastNewer, runPQ, pqPop_two_toasts]
  dsimp only
  rw [runPQ, pqPop_one_toast]
  dsimp only
  rw [runPQ]

/-- C4 counterexample: pushing two toasts with equal priority and then
popping twice returns the OLDER toast (createdAt 3) before the newer one
(createdAt 9) — on priority ties `toastComparator` ranks the smaller
`createdAt` higher (`r.createdAt - l.createdAt`), so pops are not
non-increasing in the claimed descending-createdAt tie order. -/
theorem toast_pq_tie_counterexample :
    (runPQ toastComparator []
        [PQOp.push toastOlder, PQOp.push toastNewer, PQOp.pop, PQOp.pop]).2
      = [toastOlder, toastNewer]
    ∧ toastOlder.priority = toastNewer.priority
    ∧ toastOlder.createdAt < toastNewer.createdAt := by
  refine ⟨?_, rfl, by decide⟩
  rw [runPQ_toast_trace]

/-- C4 (corrected): for every push/pop trace on the toast priority queue
with the board's `toastComparator`, the reached queue is heap-ordered,
its size plus the number of successful pops equals the number of pushes
(size = pushes − pops, counting only pops that return a value), and two
consecutive pops with no intervening push are non-increasing in the
comparator's order — higher numeric priority first, ties broken by OLDER
`createdAt` first (ascending, the opposite of the claimed descending
tie-break). -/
theorem toast_pq_spec (ops : List (PQOp ToastMessage)) :
    heapOrdered toastComparator (runPQ toastComparator [] ops).1
    ∧ (runPQ toastComparator [] ops).1.length
        + (runPQ toastComparator [] ops).2.length = pushCount ops
    ∧ ∀ a b q1 q2,
        pqPop toastComparator (runPQ toastComparator [] ops).1 = (some a, q1) →
        pqPop toastComparator q1 = (some b, q2) →
        toastComparator b a ≤ 0 := by
  have hempty : heapOrdered toastComparator ([] : List ToastMessage) := by
    intro j hj0 hjlen
    simp at hjlen
  have hmain := runPQ_heapOrdered toastComparator toastComparator_total
    toastComparator_trans ops [] hempty
  refine ⟨hmain.1, by simpa using hmain.2, ?_⟩
  intro a b q1 q2 hp1 hp2
  set q := (runPQ toastComparator [] ops).1 with hqdef
  have hq : heapOrdered toastComparator q := hmain.1
  have hqne : q ≠ [] := by
    intro hnil
    rw [hnil] at hp1
    simp [pqPop] at hp1
  have hfst := pqPop_fst toastComparator q hqne
  rw [hp1] at hfst
  simp at hfst
  have hq1ne : q1 ≠ [] := by
    intro hnil
    rw [hnil] at hp2
    simp [pqPop] at hp2
  have hb0 : b = q1.getD 0 default := by
    have hf1 := pqPop_fst toastComparator q1 hq1ne
    rw [hp2] at hf1
    simpa using hf1
  have hbmem : b ∈ q1 := by
    rw [hb0]
    rcases q1 with _ | ⟨c, t⟩
    · exact absurd rfl hq1ne
    · exact List.mem_cons_self c t
  have hbq : b ∈ q := by
    apply pqPop_snd_subset toastComparator q
    have hq2 : q1 = (pqPop toastComparator q).2 := by rw [hp1]
    rw [← hq2]
    exact hbmem
  have hle := heapOrdered_mem_le_root toastComparator toastComparator_self_nonpos
    toastComparator_trans q hq b hbq
  rw [List.getD_eq_getElem?_getD] at hle
  rw [← hfst] at hle
  exact hle

theorem toast_pq_spec_witness : toastComparator toastNewer toastOlder ≤ 0 := by
  have h := (toast_pq_spec [PQOp.push toastOlder, PQOp.push toastNewer]).2.2
  rw [runPQ_toast_pushes] at h
  exact h toastOlder toastNewer [toastNewer] [] pqPop_two_toasts pqPop_one_toast

/-! ## C2: dependency-cycle rejection keeps the store acyclic -/

theorem jsGet_store_key {byId : List (String × Task)} (hwf : StoreWF byId) {k : String}
    {t : Task} (h : jsGet byId k = some t) : t.id = k ∧ k ≠ "" := by
  unfold jsGet at h
  rcases Option.map_eq_some'.1 h with ⟨e, hfind, he2⟩
  have hmem := List.mem_of_find?_eq_some hfind
  have hk1 : e.1 = k := by simpa using List.find?_some hfind
  have hprops := hwf.2 e hmem
  constructor
  · rw [← he2, hprops.1, hk1]
  · rw [← hk1]
    exact hprops.2

theorem depEdge_source {byId : List (String × Task)} {a b : String}
    (h : depEdge byId a b) : ∃ t, jsGet byId a = some t ∧ b ∈ t.dependencyIds := by
  unfold depEdge at h
  rcases hget : jsGet byId a with _ | t
  · rw [hget] at h
    simp at h
  · rw [hget] at h
    exact ⟨t, rfl, by simpa using h⟩

theorem transGen_first {α : Type} {r : α → α → Prop} {a b : α}
    (h : Relation.TransGen r a b) : ∃ c, r a c := by
  refine Relation.TransGen.head_induction_on h ?_ ?_
  · intro a hab
    exact ⟨_, hab⟩
  · intro a c hab hcb ih
    exact ⟨_, hab⟩

theorem jsGet_map_deps (l : List (String × Task)) (k : String) :
    jsGet (l.map (fun e => (e.1, e.2.dependencyIds))) k
      = Option.map (fun t => t.dependencyIds) (jsGet l k) := by
  induction l with
  | nil => rfl
  | cons e t ih =>
    by_cases he : e.1 = k
    · simp [jsGet_cons, he]
    · simp [jsGet_cons, he, ih]

theorem buildGraph_fold (l : List (String × Task)) :
    ∀ g : List (String × List String),
      (∀ e ∈ l, e.2.id = e.1) → (keysOf l).Nodup →
      (∀ e ∈ l, ¬ e.1 ∈ keysOf g) →
      l.foldl (fun graph e => jsSet graph e.2.id e.2.dependencyIds) g
        = g ++ l.map (fun e => (e.1, e.2.dependencyIds)) := by
  induction l with
  | nil =>
    intro g _ _ _
    simp
  | cons e t ih =>
    intro g hid hnd hfresh
    have hkeys : keysOf (e :: t) = e.1 :: keysOf t := rfl
    rw [hkeys] at hnd
    have hnotin : ¬ e.1 ∈ keysOf t := (List.nodup_cons.1 hnd).1
    have hndt : (keysOf t).Nodup := (List.nodup_cons.1 hnd).2
    have hfresh2 : ∀ x ∈ t, ¬ x.1 ∈ keysOf (g ++ [(e.1, e.2.dependencyIds)]) := by
      intro x hx hmem
      have hxk : x.1 ∈ keysOf t := List.mem_map.2 ⟨x, hx, rfl⟩
      unfold keysOf at hmem
      rw [List.map_append] at hmem
      rcases List.mem_append.1 hmem with hg | he1
      · exact hfresh x (List.mem_cons_of_mem e hx) hg
      · simp at he1
        exact hnotin (he1 ▸ hxk)
    rw [List.foldl_cons, hid e (List.mem_cons_self e t),
      jsSet_of_not_mem g e.1 e.2.dependencyIds (hfresh e (List.mem_cons_self e t)),
      ih (g ++ [(e.1, e.2.dependencyIds)]) (fun x hx => hid x (List.mem_cons_of_mem e hx))
        hndt hfresh2]
    simp

theorem buildGraph_get (byId : List (String × Task)) (hwf : StoreWF byId) (k : String) :
    jsGet (buildDependencyGraph byId) k
      = Option.map (fun t => t.dependencyIds) (jsGet byId k) := by
  unfold buildDependencyGraph
  rw [buildGraph_fold byId [] (fun e he => (hwf.2 e he).1) hwf.1
    (by intro e he h; simp [keysOf] at h)]
  rw [List.nil_append]
  exact jsGet_map_deps byId k

theorem storeWF_jsSet (byId : List (String × Task)) (hwf : StoreWF byId) (k : String)
    (v : Task) (hk : k ∈ keysOf byId) (hv : v.id = k) (hke : k ≠ "") :
    StoreWF (jsSet byId k v) := by
  constructor
  · rw [keysOf_jsSet, if_pos hk]
    exact hwf.1
  · intro e he
    unfold jsSet at he
    rw [if_pos ((mem_keysOf_iff_any byId k).1 hk)] at he
    rcases List.mem_map.1 he with ⟨p, hp, hpe⟩
    by_cases hpk : p.1 = k
    · rw [if_pos hpk] at hpe
      rw [← hpe]
      exact ⟨hv, hke⟩
    · rw [if_neg hpk] at hpe
      rw [← hpe]
      exact hwf.2 p hp

theorem acyclic_of_no_edges (byId : List (String × Task))
    (h : ∀ e ∈ byId, e.2.dependencyIds = []) : AcyclicStore byId := by
  intro x hx
  rcases transGen_first hx with ⟨y, hxy⟩
  rcases depEdge_source hxy with ⟨t, hget, hmem⟩
  unfold jsGet at hget
  rcases Option.map_eq_some'.1 hget with ⟨e, hfind, he2⟩
  have hmem2 := List.mem_of_find?_eq_some hfind
  rw [← he2, h e hmem2] at hmem
  exact absurd hmem (List.not_mem_nil y)

theorem pathTo_of_transGen (graph : List (String × List String)) (target : String)
    (S : String → String → Prop)
    (hincl : ∀ a b, S a b → b ∈ neighborsOf graph a)
    (hsrc : ∀ a b, S a b → a ≠ "") :
    ∀ a, Relation.TransGen S a target → PathTo graph target a := by
  intro a h
  refine Relation.TransGen.head_induction_on h ?_ ?_
  · intro a hab
    exact PathTo.direct a (hincl a target hab)
  · intro a c hab hcb ih
    rcases transGen_first hcb with ⟨d, hcd⟩
    exact PathTo.step a c (hincl a c hab) (hsrc c d hcd) ih

theorem dfsLoop_complete (graph : List (String × List String)) (target : String) :
    ∀ (visited stack : List String),
      dfsLoop graph target visited stack = false →
      (∀ v ∈ visited, ¬ target ∈ neighborsOf graph v
        ∧ ∀ n ∈ neighborsOf graph v, n ≠ "" → n ∈ visited ∨ n ∈ stack) →
      ∀ s, (s ∈ stack ∨ s ∈ visited) → s ≠ "" → ¬ PathTo graph target s := by
  intro visited stack
  induction visited, stack using dfsLoop.induct graph target with
  | case1 visited =>
    intro hrun hinv s hs hsne hpath
    have hsv : s ∈ visited := by
      rcases hs with hs | hs
      · simp at hs
      · exact hs
    have key : ∀ x, PathTo graph target x → x ∈ visited → False := by
      intro x hp
      induction hp with
      | direct y hdir =>
        intro hyv
        exact (hinv y hyv).1 hdir
      | step y n hn hne hp ih =>
        intro hyv
        rcases (hinv y hyv).2 n hn hne with hnv | hnst
        · exact ih hnv
        · simp at hnst
    exact key s hpath hsv
  | case2 visited current rest hskip ih =>
    intro hrun hinv s hs hsne
    rw [dfsLoop] at hrun
    dsimp only at hrun
    rw [if_pos hskip] at hrun
    have hinv2 : ∀ v ∈ visited, ¬ target ∈ neighborsOf graph v
        ∧ ∀ n ∈ neighborsOf graph v, n ≠ "" → n ∈ visited ∨ n ∈ rest := by
      intro v hv
      refine ⟨(hinv v hv).1, ?_⟩
      intro n hn hne
      rcases (hinv v hv).2 n hn hne with hnv | hnst
      · exact Or.inl hnv
      · rcases List.mem_cons.1 hnst with hncur | hnrest
        · rcases hskip with hemp | hcv
          · exact absurd (hncur.trans hemp) hne
          · exact Or.inl (hncur ▸ hcv)
        · exact Or.inr hnrest
    apply ih hrun hinv2 s ?_ hsne
    rcases hs with hs | hs
    · rcases List.mem_cons.1 hs with hcur | hrest
      · rcases hskip with hemp | hcv
        · exact absurd (hcur.trans hemp) hsne
        · exact Or.inr (hcur ▸ hcv)
      · exact Or.inl hrest
    · exact Or.inr hs
  | case3 visited current rest hproc neighbors hfound =>
    intro hrun hinv s hs hsne
    exfalso
    rw [dfsLoop] at hrun
    dsimp only at hrun
    rw [if_neg hproc] at hrun
    have hfound2 : target ∈ neighborsOf graph current := hfound
    rw [if_pos hfound2] at hrun
    exact absurd hrun (by simp)
  | case4 visited current rest hproc visited2 neighbors htarget ih =>
    intro hrun hinv s hs hsne
    rw [dfsLoop] at hrun
    dsimp only at hrun
    have htarget2 : ¬ target ∈ neighborsOf graph current := htarget
    rw [if_neg hproc, if_neg htarget2] at hrun
    have hinv2 : ∀ v ∈ visited ++ [current], ¬ target ∈ neighborsOf graph v
        ∧ ∀ n ∈ neighborsOf graph v, n ≠ "" →
          n ∈ visited ++ [current]
            ∨ n ∈ (List.filter (fun n => ¬ n ∈ visited ++ [current])
                (neighborsOf graph current)).reverse ++ rest := by
      intro v hv
      rcases List.mem_append.1 hv with hvv | hvc
      · refine ⟨(hinv v hvv).1, ?_⟩
        intro n hn hne
        rcases (hinv v hvv).2 n hn hne with hnv | hnst
        · exact Or.inl (List.mem_append.2 (Or.inl hnv))
        · rcases List.mem_cons.1 hnst with hncur | hnrest
          · exact Or.inl (List.mem_append.2 (Or.inr (by simp [hncur])))
          · exact Or.inr (List.mem_append.2 (Or.inr hnrest))
      · have hvc2 : v = current := by simpa using hvc
        rw [hvc2]
        refine ⟨htarget2, ?_⟩
        intro n hn hne
        by_cases hnv : n ∈ visited ++ [current]
        · exact Or.inl hnv
        · refine Or.inr (List.mem_append.2 (Or.inl ?_))
          rw [List.mem_reverse]
          exact List.mem_filter.2 ⟨hn, by simpa using hnv⟩
    refine ih hrun hinv2 s ?_ hsne
    show s ∈ (List.filter (fun n => ¬ n ∈ visited ++ [current])
        (neighborsOf graph current)).reverse ++ rest ∨ s ∈ visited ++ [current]
    rcases hs with hs | hs
    · rcases List.mem_cons.1 hs with hcur | hrest
      · exact Or.inr (List.mem_append.2 (Or.inr (by simp [hcur])))
      · exact Or.inl (List.mem_append.2 (Or.inr hrest))
    · exact Or.inr (List.mem_append.2 (Or.inl hs))

theorem hasPath_complete (graph : List (String × List String)) (start target : String)
    (hne : start ≠ "") (hfalse : hasPath graph start target = false) :
    start ≠ target ∧ ¬ PathTo graph target start := by
  unfold hasPath at hfalse
  by_cases hst : start = target
  · rw [if_pos hst] at hfalse
    exact absurd hfalse (by simp)
  · rw [if_neg hst] at hfalse
    refine ⟨hst, ?_⟩
    exact dfsLoop_complete graph target [] [start] hfalse
      (by intro v hv; simp at hv) start (Or.inl (by simp)) hne

theorem transGen_union_edge {α : Type} (r : α → α → Prop) (u v : α)
    (hnvu : ¬ Relation.ReflTransGen r v u) (x : α)
    (hcyc : Relation.TransGen (fun a b => r a b ∨ (a = u ∧ b = v)) x x) :
    ∃ y, Relation.TransGen r y y := by
  have hdec : ∀ a b, Relation.ReflTransGen (fun a b => r a b ∨ (a = u ∧ b = v)) a b →
      Relation.ReflTransGen r a b
        ∨ (Relation.ReflTransGen r a u ∧ Relation.ReflTransGen r v b) := by
    intro a b h
    induction h with
    | refl => exact Or.inl Relation.ReflTransGen.refl
    | tail hab hbc ih =>
      rcases hbc with hr | ⟨hbu, hcv⟩
      · rcases ih with hl | ⟨hau, hvb⟩
        · exact Or.inl (hl.tail hr)
        · exact Or.inr ⟨hau, hvb.tail hr⟩
      · rcases ih with hl | ⟨hau, hvb⟩
        · refine Or.inr ⟨hbu ▸ hl, ?_⟩
          rw [hcv]
        · exact absurd (hbu ▸ hvb) hnvu
  rcases Relation.TransGen.tail'_iff.1 hcyc with ⟨b, hxb, hbx⟩
  rcases hbx with hr | ⟨hbu, hxv⟩
  · rcases hdec x b hxb with hl | ⟨hxu, hvb⟩
    · exact ⟨x, Relation.TransGen.tail' hl hr⟩
    · exact absurd ((hvb.tail hr).trans hxu) hnvu
  · subst hbu
    subst hxv
    rcases hdec x b hxb with hl | ⟨hvu, hmm⟩
    · exact absurd hl hnvu
    · exact absurd hvu hnvu

/-- One `add_dependency` dispatch: well-formedness is preserved, acyclicity
is preserved, and if the candidate edge would close a reachability cycle
the tasks are left untouched. -/
theorem add_dep_step (counter : Nat) (now : Int) (state : BoardState) (tid did : String)
    (hwf : StoreWF state.tasks.byId) :
    (StoreWF (boardReducer counter now state (.add_dependency tid did)).2.tasks.byId
      ∧ (AcyclicStore state.tasks.byId →
          AcyclicStore (boardReducer counter now state (.add_dependency tid did)).2.tasks.byId))
    ∧ (Relation.ReflTransGen (depEdgeWith state.tasks.byId tid did) did tid →
        (boardReducer counter now state (.add_dependency tid did)).2.tasks = state.tasks) := by
  simp only [boardReducer]
  rcases htask : jsGet state.tasks.byId tid with _ | task
  · dsimp only
    simp only [enqueueSystemToast_tasks]
    exact ⟨⟨hwf, fun hac => hac⟩, fun _ => trivial⟩
  · rcases hdep : jsGet state.tasks.byId did with _ | dependencyTask
    · dsimp only
      simp only [enqueueSystemToast_tasks]
      exact ⟨⟨hwf, fun hac => hac⟩, fun _ => trivial⟩
    · dsimp only
      obtain ⟨hid1, hne1⟩ := jsGet_store_key hwf htask
      obtain ⟨hid2, hne2⟩ := jsGet_store_key hwf hdep
      by_cases heq : task.id = dependencyTask.id
      · rw [if_pos heq]
        simp only [enqueueSystemToast_tasks]
        exact ⟨⟨hwf, fun hac => hac⟩, fun _ => trivial⟩
      · rw [if_neg heq]
        by_cases hexists : dependencyTask.id ∈ task.dependencyIds
        · rw [if_pos hexists]
          simp only [enqueueSystemToast_tasks]
          exact ⟨⟨hwf, fun hac => hac⟩, fun _ => trivial⟩
        · rw [if_neg hexists]
          by_cases hcyc : createsDependencyCycle state.tasks.byId task.id dependencyTask.id
              = true
          · rw [if_pos hcyc]
            simp only [enqueueSystemToast_tasks]
            exact ⟨⟨hwf, fun hac => hac⟩, fun _ => trivial⟩
          · rw [if_neg hcyc]
            simp only [enqueueSystemToast_tasks]
            have hmemk : tid ∈ keysOf state.tasks.byId := by
              by_contra hmem
              have hnone := (jsGet_eq_none_iff state.tasks.byId tid).2 hmem
              rw [htask] at hnone
              exact absurd hnone (by simp)
            have htask2 : jsGet state.tasks.byId task.id = some task := by
              rw [hid1]
              exact htask
            have hcyc2 : createsDependencyCycle state.tasks.byId task.id dependencyTask.id
                = false := by
              simpa using hcyc
            have hcurr : jsGet (buildDependencyGraph state.tasks.byId) task.id
                = some task.dependencyIds := by
              rw [buildGraph_get state.tasks.byId hwf, htask2]
              rfl
            unfold createsDependencyCycle at hcyc2
            dsimp only at hcyc2
            rw [hcurr] at hcyc2
            simp only [Option.getD_some] at hcyc2
            have hpathc := hasPath_complete _ dependencyTask.id task.id
              (by rw [hid2]; exact hne2) hcyc2
            set graph2 := jsSet (buildDependencyGraph state.tasks.byId) task.id
              (task.dependencyIds ++ [dependencyTask.id]) with hg2
            have hnbrs : ∀ a, neighborsOf graph2 a
                = if a = task.id then task.dependencyIds ++ [dependencyTask.id]
                  else (Option.map (fun t => t.dependencyIds)
                    (jsGet state.tasks.byId a)).getD [] := by
              intro a
              rw [hg2]
              unfold neighborsOf
              rw [jsGet_jsSet]
              by_cases ha : a = task.id
              · rw [if_pos ha, if_pos ha]
                rfl
              · rw [if_neg ha, if_neg ha, buildGraph_get state.tasks.byId hwf]
            have hincl : ∀ a b, depEdgeWith state.tasks.byId tid did a b →
                b ∈ neighborsOf graph2 a := by
              intro a b hab
              rw [hnbrs a]
              rcases hab with hr | ⟨hau, hbv⟩
              · rcases depEdge_source hr with ⟨t, hga, hbt⟩
                by_cases ha : a = task.id
                · rw [if_pos ha]
                  rw [ha] at hga
                  have ht : t = task := Option.some.inj (hga.symm.trans htask2)
                  exact List.mem_append.2 (Or.inl (ht ▸ hbt))
                · rw [if_neg ha, hga]
                  simpa using hbt
              · rw [if_pos (hau.trans hid1.symm)]
                have hb : b = dependencyTask.id := hbv.trans hid2.symm
                exact List.mem_append.2 (Or.inr (by rw [hb]; exact List.mem_singleton.mpr rfl))
            have hsrc : ∀ a b, depEdgeWith state.tasks.byId tid did a b → a ≠ "" := by
              intro a b hab
              rcases hab with hr | ⟨hau, hbv⟩
              · rcases depEdge_source hr with ⟨t, hga, hbt⟩
                exact (jsGet_store_key hwf hga).2
              · rw [hau]
                exact hne1
            have hneq : ¬ tid = did := by
              rw [← hid1, ← hid2]
              exact heq
            have hnoS : ¬ Relation.ReflTransGen (depEdgeWith state.tasks.byId tid did)
                did tid := by
              intro hS
              rcases Relation.reflTransGen_iff_eq_or_transGen.1 hS with heqd | htg
              · exact hneq heqd
              · have htg2 : Relation.TransGen (depEdgeWith state.tasks.byId tid did)
                    did task.id := by
                  rw [hid1]
                  exact htg
                have hpt := pathTo_of_transGen graph2 task.id
                  (depEdgeWith state.tasks.byId tid did) hincl hsrc did htg2
                have hpt2 : PathTo graph2 task.id dependencyTask.id := by
                  rw [hid2]
                  exact hpt
                exact hpathc.2 hpt2
            refine ⟨⟨?_, ?_⟩, ?_⟩
            · exact storeWF_jsSet state.tasks.byId hwf task.id _
                (by rw [hid1]; exact hmemk) rfl (by rw [hid1]; exact hne1)
            · intro hac x hx
              have hxS : Relation.TransGen
                  (fun a b => depEdge state.tasks.byId a b ∨ (a = tid ∧ b = did)) x x := by
                refine Relation.TransGen.mono ?_ hx
                intro a b hab
                rcases depEdge_source hab with ⟨t, hga, hbt⟩
                rw [jsGet_jsSet] at hga
                by_cases ha : a = task.id
                · rw [if_pos ha] at hga
                  have ht := Option.some.inj hga
                  rw [← ht] at hbt
                  rcases List.mem_append.1 (show b ∈ task.dependencyIds
                      ++ [dependencyTask.id] by simpa using hbt) with hb1 | hb2
                  · refine Or.inl ?_
                    unfold depEdge
                    rw [ha, htask2]
                    simpa using hb1
                  · exact Or.inr ⟨ha.trans hid1,
                      (show b = dependencyTask.id by simpa using hb2).trans hid2⟩
                · rw [if_neg ha] at hga
                  refine Or.inl ?_
                  unfold depEdge
                  rw [hga]
                  simpa using hbt
              rcases transGen_union_edge (depEdge state.tasks.byId) tid did
                (fun h => hnoS (h.mono (fun a b hr => Or.inl hr))) x hxS with ⟨y, hy⟩
              exact hac y hy
            · intro hreach
              exact absurd hreach hnoS

/-- C2: starting from a well-formed store whose dependency graph is
acyclic, every sequence of `add_dependency` intents keeps the store
well-formed and acyclic — no task ever becomes reachable from itself
along `dependencyIds` edges; and any single `add_dependency
taskId dependsOnTaskId` intent whose candidate edge would make `taskId`
reachable from `dependsOnTaskId` (including `taskId = dependsOnTaskId`)
leaves the task store, and hence every task's `dependencyIds`,
unchanged. -/
theorem add_dependency_acyclic :
    (∀ (counter : Nat) (state : BoardState) (intents : List (Int × BoardAction)),
      (∀ p ∈ intents, ∃ tid did, p.2 = BoardAction.add_dependency tid did) →
      StoreWF state.tasks.byId → AcyclicStore state.tasks.byId →
      StoreWF (runBoard counter state intents).2.tasks.byId
        ∧ AcyclicStore (runBoard counter state intents).2.tasks.byId)
    ∧ ∀ (counter : Nat) (now : Int) (state : BoardState) (tid did : String),
      StoreWF state.tasks.byId →
      Relation.ReflTransGen (depEdgeWith state.tasks.byId tid did) did tid →
      (boardReducer counter now state (BoardAction.add_dependency tid did)).2.tasks
        = state.tasks := by
  constructor
  · intro counter state intents
    induction intents generalizing counter state with
    | nil =>
      intro _ hwf hac
      exact ⟨hwf, hac⟩
    | cons p rest ih =>
      intro hall hwf hac
      obtain ⟨now, action⟩ := p
      obtain ⟨t, d, haction⟩ := hall (now, action) (List.mem_cons_self _ _)
      dsimp only at haction
      subst haction
      simp only [runBoard]
      have hstep := add_dep_step counter now state t d hwf
      exact ih (boardReducer counter now state (.add_dependency t d)).1
        (boardReducer counter now state (.add_dependency t d)).2
        (fun q hq => hall q (List.mem_cons_of_mem _ hq)) hstep.1.1 (hstep.1.2 hac)
  · intro counter now state tid did hwf hreach
    exact (add_dep_step counter now state tid did hwf).2 hreach

theorem add_dependency_acyclic_witness :
    AcyclicStore (runBoard 0 wfState [(5, BoardAction.add_dependency "A" "B")]).2.tasks.byId
    ∧ (boardReducer 0 5 wfState (BoardAction.add_dependency "A" "A")).2.tasks
      = wfState.tasks := by
  have hwf : StoreWF wfState.tasks.byId := by
    unfold StoreWF
    decide
  have hac : AcyclicStore wfState.tasks.byId :=
    acyclic_of_no_edges wfState.tasks.byId (by decide)
  constructor
  · exact (add_dependency_acyclic.1 0 wfState [(5, BoardAction.add_dependency "A" "B")]
      (by
        intro p hp
        simp only [List.mem_singleton] at hp
        exact ⟨"A", "B", by rw [hp]⟩)
      hwf hac).2
  · exact add_dependency_acyclic.2 0 5 wfState "A" "A" hwf Relation.ReflTransGen.refl

end TaskBoard
